import Mathlib

/-!
Verification of the ExcelProcessor extraction core (`excelprocessor.py`).

The Python source is shallowly embedded: each Python function becomes a Lean
definition of the same name, XML element trees become the inductive `XML`,
the zip archive becomes the `Zip` structure, Python exceptions become
`Except Unit`, and the unbounded recursion of `build_node` becomes a
fuel-indexed function (`none` models a Python `RecursionError`).

ElementTree resolves namespace prefixes through the injective `NAMESPACES`
table, so qualified tag names are modelled one-to-one by their prefixed
forms (`"xdr:pic"`, `"a:t"`, `"pr:Relationship"`, ...), and qualified
attribute names likewise (`"r:embed"`, `"r:dm"`, ...).
-/

namespace ExcelProcessor

/-! ## XML element model (xml.etree.ElementTree) -/

/-- An XML element: tag, attribute list, optional text, child elements.
Models `xml.etree.ElementTree.Element` (`attrib` as an insertion-ordered
association list, `text` as the element's leading text node). -/
inductive XML where
  | elem (tag : String) (attrib : List (String × String)) (text : Option String)
      (children : List XML)

def XML.tag : XML → String
  | .elem t _ _ _ => t

def XML.attrib : XML → List (String × String)
  | .elem _ a _ _ => a

def XML.text : XML → Option String
  | .elem _ _ x _ => x

def XML.children : XML → List XML
  | .elem _ _ _ c => c

/-- `attrib.get(k)`: first binding of `k` in the attribute list. -/
def attrGet (attrs : List (String × String)) (k : String) : Option String :=
  (attrs.find? (fun p => p.1 == k)).map Prod.snd

def XML.getAttr (e : XML) (k : String) : Option String :=
  attrGet e.attrib k

/-- `elem.find(tag)` for a plain (non-descendant) path: first direct child
with the given tag. -/
def XML.findChild (e : XML) (tag : String) : Option XML :=
  e.children.find? (fun c => c.tag == tag)

/-- `elem.findall(tag)` for a plain path: all direct children with the tag,
in document order. -/
def XML.findAllChildren (e : XML) (tag : String) : List XML :=
  e.children.filter (fun c => c.tag == tag)

mutual

/-- All elements of a subtree (the root element included) whose tag matches,
in document (preorder) order. -/
def subtreeMatching (tag : String) : XML → List XML
  | .elem t a x cs =>
    (if t == tag then [XML.elem t a x cs] else []) ++ listMatching tag cs

/-- `subtreeMatching` mapped over a list of sibling subtrees. -/
def listMatching (tag : String) : List XML → List XML
  | [] => []
  | e :: es => subtreeMatching tag e ++ listMatching tag es

end

/-- `elem.findall(".//tag")`: all descendants (the element itself excluded)
with the given tag, in document order. -/
def XML.findAllDesc (e : XML) (tag : String) : List XML :=
  listMatching tag e.children

/-- `elem.find(".//tag")`: first matching descendant in document order. -/
def XML.findDesc (e : XML) (tag : String) : Option XML :=
  (e.findAllDesc tag).head?

/-! ## POSIX path primitives (`posixpath`, `os.path` on POSIX)

All path work happens on `List Char` and is wrapped into `String` at the
boundary, mirroring `posixpath.join`, `posixpath.normpath`,
`posixpath.dirname`, `posixpath.basename`, `os.path.splitext`,
`os.path.relpath`, and `str.split('/')`. -/

/-- `str.split('/')`: split on every slash, keeping empty pieces. -/
def splitCharList : List Char → List (List Char)
  | [] => [[]]
  | c :: rest =>
    if c = '/' then [] :: splitCharList rest
    else
      match splitCharList rest with
      | [] => [[c]]
      | h :: t => (c :: h) :: t

/-- `'/'.join(comps)`. -/
def joinSlash : List (List Char) → List Char
  | [] => []
  | [c] => c
  | c :: rest => c ++ '/' :: joinSlash rest

/-- Two-argument `posixpath.join`. -/
def posixJoinChars (a b : List Char) : List Char :=
  if b.head? = some '/' then b
  else if a = [] ∨ a.getLast? = some '/' then a ++ b
  else a ++ '/' :: b

def posixJoin (a b : String) : String :=
  ⟨posixJoinChars a.data b.data⟩

/-- The `..` path component. -/
def dotdot : List Char := ['.', '.']

/-- The component-collapsing loop of `posixpath.normpath`: skip `''` and `'.'`
components, keep ordinary components, and let `..` pop the last kept
component unless the path is relative and nothing is left to pop (then the
`..` is kept) or the last kept component is itself `..`. -/
def normCompsGo (isAbs : Bool) : List (List Char) → List (List Char) → List (List Char)
  | acc, [] => acc
  | acc, comp :: rest =>
    if comp = [] ∨ comp = ['.'] then normCompsGo isAbs acc rest
    else if comp ≠ dotdot ∨ (¬ isAbs ∧ acc = []) ∨ (acc ≠ [] ∧ acc.getLast? = some dotdot) then
      normCompsGo isAbs (acc ++ [comp]) rest
    else if acc ≠ [] then normCompsGo isAbs acc.dropLast rest
    else normCompsGo isAbs acc rest

def normComps (isAbs : Bool) (comps : List (List Char)) : List (List Char) :=
  normCompsGo isAbs [] comps

/-- `posixpath.normpath` on character lists: empty path becomes `.`, one or
two (but not three or more) leading slashes are preserved, components are
collapsed by `normCompsGo`, and an empty result becomes `.`. -/
def normpathChars (p : List Char) : List Char :=
  if p = [] then ['.']
  else
    let slashes : Nat :=
      if p.take 3 = ['/', '/', '/'] then 1
      else if p.take 2 = ['/', '/'] then 2
      else if p.take 1 = ['/'] then 1
      else 0
    let comps := normComps (decide (slashes ≠ 0)) (splitCharList p)
    let path := List.replicate slashes '/' ++ joinSlash comps
    if path = [] then ['.'] else path

def pyNormpath (s : String) : String :=
  ⟨normpathChars s.data⟩

/-- The `while joined.startswith("./"): joined = joined[2:]` loop of
`normalize_rel_target`. -/
def stripDotSlashChars : List Char → List Char
  | c1 :: c2 :: rest =>
    if c1 = '.' ∧ c2 = '/' then stripDotSlashChars rest else c1 :: c2 :: rest
  | l => l

/-- `normalize_rel_target`: join the relationship target onto the base
directory, normalize, and strip leading `./`. -/
def normalize_rel_target (base_dir_in_zip target : String) : String :=
  ⟨stripDotSlashChars (normpathChars (posixJoinChars base_dir_in_zip.data target.data))⟩

/-- Slash-separated segments of a path string. -/
def splitSlash (s : String) : List String :=
  (splitCharList s.data).map (fun l => ⟨l⟩)

/-- `posixpath.dirname`: everything up to the last slash, with trailing
slashes stripped unless the head is all slashes. -/
def dirnameChars (p : List Char) : List Char :=
  let head := (p.reverse.dropWhile (fun c => c ≠ '/')).reverse
  if head ≠ [] ∧ head.any (fun c => c ≠ '/') then
    (head.reverse.dropWhile (fun c => c = '/')).reverse
  else head

def dirnameStr (p : String) : String :=
  ⟨dirnameChars p.data⟩

/-- `posixpath.basename`: everything after the last slash. -/
def basenameChars (p : List Char) : List Char :=
  (p.reverse.takeWhile (fun c => c ≠ '/')).reverse

def basenameStr (p : String) : String :=
  ⟨basenameChars p.data⟩

/-- The extension part of `os.path.splitext`: from the last dot of the
basename, provided some earlier character of the basename is not a dot. -/
def splitextExtChars (p : List Char) : List Char :=
  let base := basenameChars p
  let revb := base.reverse
  let afterDot := revb.takeWhile (fun c => c ≠ '.')
  if afterDot.length = base.length then []
  else
    let pre := (revb.drop (afterDot.length + 1)).reverse
    if pre.any (fun c => c ≠ '.') then '.' :: afterDot.reverse else []

def splitextExt (p : String) : String :=
  ⟨splitextExtChars p.data⟩

/-- Length of the longest common prefix of two component lists
(`posixpath.commonprefix` on lists). -/
def commonPrefixLen : List (List Char) → List (List Char) → Nat
  | a :: as, b :: bs => if a = b then commonPrefixLen as bs + 1 else 0
  | _, _ => 0

/-- `os.path.relpath(path, start)` for two relative paths interpreted
against one working directory: normalize both, drop the shared leading
components, and climb with `..` for what is left of `start`. (CPython routes
both arguments through `abspath`; with a common working directory the
absolute prefix cancels, which this definition reflects.) -/
def relpathChars (path start : List Char) : List Char :=
  let pl := (splitCharList (normpathChars path)).filter (fun c => c ≠ [] ∧ c ≠ ['.'])
  let sl := (splitCharList (normpathChars start)).filter (fun c => c ≠ [] ∧ c ≠ ['.'])
  let i := commonPrefixLen sl pl
  let rel := List.replicate (sl.length - i) dotdot ++ pl.drop i
  if rel = [] then ['.'] else joinSlash rel

def relpathStr (path start : String) : String :=
  ⟨relpathChars path.data start.data⟩

/-- `str.replace(pat, sub)` (all occurrences, left to right), driven by a
character budget that each step consumes. -/
def replaceAllAux (pat sub : List Char) : Nat → List Char → List Char
  | 0, s => s
  | n + 1, s =>
    if pat ≠ [] ∧ pat.isPrefixOf s then sub ++ replaceAllAux pat sub n (s.drop pat.length)
    else
      match s with
      | [] => []
      | c :: rest => c :: replaceAllAux pat sub n rest

def replaceAll (s pat sub : String) : String :=
  ⟨replaceAllAux pat.data sub.data s.data.length s.data⟩

/-! ## Small Python string helpers -/

/-- Characters kept verbatim by `re.sub(r"[^A-Za-z0-9_-]+", "_", ...)`. -/
def okChar (c : Char) : Bool :=
  c.isAlpha || c.isDigit || c = '_' || c = '-'

/-- Collapse every maximal run of disallowed characters to one `_`
(the Boolean records whether the previous character was disallowed). -/
def sanitizeAux : Bool → List Char → List Char
  | _, [] => []
  | prevBad, c :: rest =>
    if okChar c then c :: sanitizeAux false rest
    else if prevBad then sanitizeAux true rest
    else '_' :: sanitizeAux true rest

def sanitizeSheetName (s : String) : String :=
  ⟨sanitizeAux false s.data⟩

/-- `str.rstrip()`. -/
def pyRstrip (s : String) : String :=
  ⟨(s.data.reverse.dropWhile Char.isWhitespace).reverse⟩

/-- `str.strip()` (whitespace on both ends). -/
def pyStrip (s : String) : String :=
  ⟨((s.data.dropWhile Char.isWhitespace).reverse.dropWhile Char.isWhitespace).reverse⟩

/-- `str.endswith(suffix)`. -/
def strEndsWith (s suffix : String) : Bool :=
  suffix.data.isSuffixOf s.data

/-- `str.lower()`. -/
def pyLower (s : String) : String :=
  ⟨s.data.map Char.toLower⟩

/-- Model of Python `int(str)`: optional surrounding whitespace, optional
sign, one or more decimal digits; anything else raises (here: `none`). -/
def pyInt (s : String) : Option Int :=
  let t := pyStrip s
  let core : Int × List Char :=
    match t.data with
    | '-' :: rest => (-1, rest)
    | '+' :: rest => (1, rest)
    | l => (1, l)
  if core.2 ≠ [] ∧ core.2.all Char.isDigit then
    some (core.1 * (core.2.foldl (fun acc c => acc * 10 + (c.toNat - '0'.toNat : Nat)) 0 : Nat))
  else none

/-- `" ".join(t.strip() for t in texts).strip()` — the text-joining idiom
used for shape text and SmartArt point text. -/
def joinTrimmed (texts : List String) : String :=
  pyStrip (" ".intercalate (texts.map pyStrip))

/-- `"  " * depth`-style string repetition. -/
def dupString (s : String) (n : Nat) : String :=
  ⟨(List.replicate n s.data).flatten⟩

/-! ## Data model (`@dataclass` records of the source) -/

/-- The `from`-position of an anchor: `{col, colOff, row, rowOff}`. -/
structure Anchor where
  col : Int
  colOff : Int
  row : Int
  rowOff : Int
deriving DecidableEq

structure ImageInfo where
  sheet_name : String
  image_filename : String
  original_part : String
  anchor : Anchor
deriving DecidableEq

structure ShapeText where
  sheet_name : String
  text : String
  anchor : Anchor
deriving DecidableEq

inductive SmartArtNode where
  | mk (id : String) (text : String) (children : List SmartArtNode)

def SmartArtNode.id : SmartArtNode → String
  | .mk i _ _ => i

def SmartArtNode.text : SmartArtNode → String
  | .mk _ t _ => t

def SmartArtNode.children : SmartArtNode → List SmartArtNode
  | .mk _ _ c => c

/-! ## The archive and part loading -/

/-- An opened zip archive: member names, each member's parse result as XML
(`none` models malformed XML on which `ET.fromstring` raises `ParseError`),
and each member's raw bytes. -/
structure Zip where
  names : List String
  xml : String → Option XML
  bytes : String → List Nat

/-- `load_xml`: open the member and parse it. A missing member
(`KeyError` from `zipf.open`) or a parse failure (`ParseError` from
`ET.fromstring`) raises, modelled as `Except.error`. -/
def load_xml (z : Zip) (path : String) : Except Unit XML :=
  if path ∈ z.names then
    match z.xml path with
    | some x => Except.ok x
    | none => Except.error ()
  else Except.error ()

/-! ## Python dict idioms (insertion-ordered association lists) -/

/-- `d[k] = v`: overwrite in place, or append a new binding. -/
def dictInsert {α : Type} (m : List (String × α)) (k : String) (v : α) :
    List (String × α) :=
  if m.any (fun p => p.1 == k) then
    m.map (fun p => if p.1 == k then (k, v) else p)
  else m ++ [(k, v)]

/-- `d.get(k)`: first (unique) binding of `k`. -/
def dictGet {α : Type} (m : List (String × α)) (k : String) : Option α :=
  (m.find? (fun p => p.1 == k)).map Prod.snd

/-- `defaultdict(list)`'s `d[k].append(v)`. -/
def listAppendAt (m : List (String × List String)) (k v : String) :
    List (String × List String) :=
  if m.any (fun p => p.1 == k) then
    m.map (fun p => if p.1 == k then (p.1, p.2 ++ [v]) else p)
  else m ++ [(k, [v])]

/-- A relationship map: `rel_id -> (Type, Target)` in document order. -/
abbrev RelMap := List (String × (String × String))

/-- The shared `Relationship`-collecting loop of `read_rels` and
`read_sheet_relationships`: `rel.attrib["Id"]` raises on a missing `Id`. -/
def loadRelsAt (z : Zip) (rels_path : String) : Except Unit RelMap :=
  if rels_path ∈ z.names then do
    let root ← load_xml z rels_path
    (root.findAllDesc "pr:Relationship").foldlM
      (fun m rel =>
        match rel.getAttr "Id" with
        | some i =>
          Except.ok (dictInsert m i ((rel.getAttr "Type").getD "", (rel.getAttr "Target").getD ""))
        | none => Except.error ())
      ([] : RelMap)
  else Except.ok []

/-- `read_rels`: rels file of a part lives at `<dir>/_rels/<basename>.rels`. -/
def read_rels (z : Zip) (part_path : String) : Except Unit RelMap :=
  let base_dir := dirnameStr part_path
  let rels_dir := posixJoin base_dir "_rels"
  let rels_path := posixJoin rels_dir (basenameStr part_path ++ ".rels")
  loadRelsAt z rels_path

/-- `read_sheet_relationships`: the worksheet variant derives the rels
directory with a textual `replace` on the sheet directory. -/
def read_sheet_relationships (z : Zip) (sheet_path : String) : Except Unit RelMap :=
  let rels_dir := replaceAll (dirnameStr sheet_path) "xl/worksheets" "xl/worksheets/_rels"
  let rels_path := posixJoin rels_dir (basenameStr sheet_path ++ ".rels")
  loadRelsAt z rels_path

/-! ## Anchor extraction -/

/-- `read_child` inside `extract_anchor`: a missing child element, missing
text, or unparseable integer all yield 0. -/
def read_child (from_elem : XML) (name : String) : Int :=
  match from_elem.findChild ("xdr:" ++ name) with
  | none => 0
  | some child =>
    match child.text with
    | none => 0
    | some t => (pyInt t).getD 0

def read_pos (from_elem : XML) : Anchor :=
  { col := read_child from_elem "col"
    colOff := read_child from_elem "colOff"
    row := read_child from_elem "row"
    rowOff := read_child from_elem "rowOff" }

/-- `extract_anchor`: the `xdr:from` position of an anchor container, with
a total fallback of all zeros when `xdr:from` is absent. -/
def extract_anchor (anchor_elem : XML) : Anchor :=
  match anchor_elem.findChild "xdr:from" with
  | some from_pos => read_pos from_pos
  | none => { col := 0, colOff := 0, row := 0, rowOff := 0 }

/-- `read_text_nodes`: the text of every `a:t` descendant that has text,
in document order. -/
def read_text_nodes (e : XML) : List String :=
  (e.findAllDesc "a:t").filterMap XML.text

/-! ## `extract_images_and_shapes`

The anchor loop threads `image_counter` plus the accumulated items.
Image bytes written to disk are modelled as the ordered `writes` log. -/

structure ExtractState where
  counter : Nat
  images : List ImageInfo
  shapes : List ShapeText
  smartRefs : List (Anchor × String × String)
  writes : List (String × List Nat)

/-- The picture branch of the anchor loop: resolve the blip's `r:embed`
relationship, and if the target part is present, bump the counter, write the
bytes under `<sanitized>_img_<counter><ext or .bin>` and record the item.
Any missing link silently contributes nothing. -/
def picStep (z : Zip) (rels : RelMap) (base_dir_in_zip output_images_dir sheet_name : String)
    (anchor_pos : Anchor) (pic : XML) (st : ExtractState) : ExtractState :=
  match pic.findDesc "a:blip" with
  | none => st
  | some blip =>
    match blip.getAttr "r:embed" with
    | none => st
    | some rid =>
      if rid ≠ "" then
        match dictGet rels rid with
        | none => st
        | some rel =>
          let part_in_zip := normalize_rel_target base_dir_in_zip rel.2
          if part_in_zip ∈ z.names then
            let counter := st.counter + 1
            let ext := if splitextExt part_in_zip = "" then ".bin" else splitextExt part_in_zip
            let safe_sheet := sanitizeSheetName sheet_name
            let out_name := safe_sheet ++ "_img_" ++ toString counter ++ ext
            let out_path := posixJoin output_images_dir out_name
            { st with
              counter := counter
              images := st.images ++
                [{ sheet_name := sheet_name
                   image_filename := relpathStr out_path (dirnameStr output_images_dir)
                   original_part := part_in_zip
                   anchor := anchor_pos }]
              writes := st.writes ++ [(out_path, z.bytes part_in_zip)] }
          else st
      else st

/-- The shape branch: join and strip the text runs of `xdr:txBody`; an item
is recorded only when the resulting string is non-empty. -/
def shapeStep (sheet_name : String) (anchor_pos : Anchor) (sp : XML)
    (st : ExtractState) : ExtractState :=
  match sp.findChild "xdr:txBody" with
  | none => st
  | some tx_body =>
    let texts := read_text_nodes tx_body
    let text_content := joinTrimmed texts
    if text_content ≠ "" then
      { st with shapes := st.shapes ++
          [{ sheet_name := sheet_name, text := text_content, anchor := anchor_pos }] }
    else st

/-- One `("lo" | "qs" | "cs")` iteration of the graphic-frame branch. -/
def relIdsKeyStep (rels : RelMap) (base_dir_in_zip : String) (anchor_pos : Anchor)
    (rel_ids : XML) (st : ExtractState) (key : String) : ExtractState :=
  match rel_ids.getAttr ("r:" ++ key) with
  | none => st
  | some rid =>
    if rid ≠ "" then
      match dictGet rels rid with
      | none => st
      | some rel =>
        { st with smartRefs := st.smartRefs ++
            [(anchor_pos, rid, normalize_rel_target base_dir_in_zip rel.2)] }
    else st

/-- The graphic-frame branch: for a `graphicData` whose `uri` ends in
`/diagram`, emit the `r:dm` reference when it resolves, and then — in every
case — also each of `r:lo`, `r:qs`, `r:cs` that resolves. -/
def gframeStep (rels : RelMap) (base_dir_in_zip : String) (anchor_pos : Anchor)
    (gframe : XML) (st : ExtractState) : ExtractState :=
  match gframe.findDesc "a:graphicData" with
  | none => st
  | some gdata =>
    let uri := (gdata.getAttr "uri").getD ""
    if strEndsWith uri "/diagram" then
      match gdata.findChild "dgm:relIds" with
      | none => st
      | some rel_ids =>
        let st1 :=
          match rel_ids.getAttr "r:dm" with
          | none => st
          | some dm_rid =>
            if dm_rid ≠ "" then
              match dictGet rels dm_rid with
              | none => st
              | some rel =>
                { st with smartRefs := st.smartRefs ++
                    [(anchor_pos, dm_rid, normalize_rel_target base_dir_in_zip rel.2)] }
            else st
        ["lo", "qs", "cs"].foldl (relIdsKeyStep rels base_dir_in_zip anchor_pos rel_ids) st1
    else st

/-- One anchor of the loop body: classify into picture / shape-with-text /
graphic-frame, first match wins (the `continue` statements). -/
def anchorStep (z : Zip) (rels : RelMap)
    (base_dir_in_zip output_images_dir sheet_name : String)
    (st : ExtractState) (anchor : XML) : ExtractState :=
  let anchor_pos := extract_anchor anchor
  match anchor.findChild "xdr:pic" with
  | some pic => picStep z rels base_dir_in_zip output_images_dir sheet_name anchor_pos pic st
  | none =>
    match anchor.findChild "xdr:sp" with
    | some sp => shapeStep sheet_name anchor_pos sp st
    | none =>
      match anchor.findChild "xdr:graphicFrame" with
      | some gframe => gframeStep rels base_dir_in_zip anchor_pos gframe st
      | none => st

/-- `iter_anchors`: all `twoCellAnchor` children first, then all
`oneCellAnchor` children (the fixed tie-break of the source). -/
def iter_anchors (drawing_root : XML) : List XML :=
  drawing_root.findAllChildren "xdr:twoCellAnchor" ++
    drawing_root.findAllChildren "xdr:oneCellAnchor"

def initExtractState : ExtractState :=
  { counter := 0, images := [], shapes := [], smartRefs := [], writes := [] }

/-- `extract_images_and_shapes`: parse the drawing part and its rels, then
fold the anchor loop. A parse failure of either part propagates. -/
def extract_images_and_shapes (z : Zip) (drawing_path output_images_dir sheet_name : String) :
    Except Unit (List ImageInfo × List ShapeText × List (Anchor × String × String) ×
      List (String × List Nat)) := do
  let drawing_root ← load_xml z drawing_path
  let rels ← read_rels z drawing_path
  let base_dir_in_zip := dirnameStr drawing_path
  let st := (iter_anchors drawing_root).foldl
    (anchorStep z rels base_dir_in_zip output_images_dir sheet_name) initExtractState
  Except.ok (st.images, st.shapes, st.smartRefs, st.writes)

/-! ## `build_smartart_hierarchy`

`build_node` recurses through `children_map` with no cycle detection; the
embedding indexes it by fuel, `none` standing for the `RecursionError` that
unbounded recursion raises in Python. -/

/-- The text of one `dgm:pt`: joined and stripped `a:t` runs, with the
`dgm:prSet` `name` attribute as fallback when that is empty. -/
def ptText (pt : XML) : String :=
  let text_value := joinTrimmed (read_text_nodes pt)
  if text_value = "" then
    match pt.findChild "dgm:prSet" with
    | some pr =>
      match pr.getAttr "name" with
      | some name_attr => if name_attr ≠ "" then name_attr else text_value
      | none => text_value
    | none => text_value
  else text_value

/-- The `id_to_text` dict: every `dgm:pt` descendant with a non-empty
`modelId`, in document order. -/
def idToTextOf (root : XML) : List (String × String) :=
  (root.findAllDesc "dgm:pt").foldl
    (fun m pt =>
      let model_id := (pt.getAttr "modelId").getD ""
      if model_id ≠ "" then dictInsert m model_id (ptText pt) else m)
    []

/-- The `children_map` / `indegree` pair built from the `dgm:cxn`
descendants: each connection with non-empty `srcId` and `destId` appends the
destination to the source's child list, bumps the destination's indegree,
and `setdefault`s the source's indegree. -/
def cxnFold (root : XML) : List (String × List String) × List (String × Nat) :=
  (root.findAllDesc "dgm:cxn").foldl
    (fun acc cxn =>
      match cxn.getAttr "srcId", cxn.getAttr "destId" with
      | some src, some dst =>
        if src ≠ "" ∧ dst ≠ "" then
          let cm := listAppendAt acc.1 src dst
          let ind := dictInsert acc.2 dst ((dictGet acc.2 dst).getD 0 + 1)
          let ind := if ind.any (fun p => p.1 == src) then ind
            else ind ++ [(src, (dictGet ind src).getD 0)]
          (cm, ind)
        else acc
      | _, _ => acc)
    ([], [])

def childrenMapOf (root : XML) : List (String × List String) :=
  (cxnFold root).1

def indegreeOf (root : XML) : List (String × Nat) :=
  (cxnFold root).2

/-- `roots`: the known point ids whose indegree is zero. -/
def rootsOf (root : XML) : List String :=
  ((idToTextOf root).map Prod.fst).filter
    (fun node_id => (dictGet (indegreeOf root) node_id).getD 0 == 0)

/-- Collect a list of optional results, failing as soon as one is `none`
(the effect of an exception escaping a Python list comprehension). -/
def optionsAll {α : Type} : List (Option α) → Option (List α)
  | [] => some []
  | none :: _ => none
  | some a :: rest =>
    match optionsAll rest with
    | some as => some (a :: as)
    | none => none

/-- `build_node`, fuel-indexed: each recursion level spends one unit.
`none` models the `RecursionError` of the unbounded Python recursion. -/
def buildNode (itt : List (String × String)) (cm : List (String × List String)) :
    Nat → String → Option SmartArtNode
  | 0, _ => none
  | fuel + 1, node_id =>
    let text := (dictGet itt node_id).getD ""
    let child_ids := (dictGet cm node_id).getD []
    match optionsAll (child_ids.map (buildNode itt cm fuel)) with
    | some children => some (.mk node_id text children)
    | none => none

/-- The ids the forest is built from: the indegree-zero roots, or — when
there is none — every known point (`nodes = [build_node(r) for r in roots]
if roots else [build_node(nid) for nid in id_to_text.keys()]`). -/
def targetsOf (root : XML) : List String :=
  if rootsOf root ≠ [] then rootsOf root else (idToTextOf root).map Prod.fst

/-- The forest construction of `build_smartart_hierarchy` on a parsed data
model. -/
def buildForest (fuel : Nat) (root : XML) : Option (List SmartArtNode) :=
  optionsAll ((targetsOf root).map (buildNode (idToTextOf root) (childrenMapOf root) fuel))

/-- `build_smartart_hierarchy`: load and parse the data model part, then
build the forest; a missing/malformed part raises, and exhausted fuel
(`RecursionError`) also raises. -/
def build_smartart_hierarchy (z : Zip) (fuel : Nat) (data_model_path : String) :
    Except Unit (List SmartArtNode) := do
  let root ← load_xml z data_model_path
  match buildForest fuel root with
  | some nodes => Except.ok nodes
  | none => Except.error ()

/-! ## Workbook topology and `process_excel` -/

/-- `parse_workbook_sheets`: worksheet-typed relationships keyed by id, then
the `s:sheet` entries in document order, each resolved through its `r:id`
(sheets whose id does not resolve are skipped). -/
def parse_workbook_sheets (z : Zip) : Except Unit (List (String × String)) := do
  let workbook_root ← load_xml z "xl/workbook.xml"
  let rels_root ← load_xml z "xl/_rels/workbook.xml.rels"
  let rid_to_target ← (rels_root.findAllDesc "pr:Relationship").foldlM
    (fun m rel =>
      let r_type := (rel.getAttr "Type").getD ""
      if strEndsWith r_type "/worksheet" then
        let target := (rel.getAttr "Target").getD ""
        let target_path := normalize_rel_target "xl" target
        match rel.getAttr "Id" with
        | some i => Except.ok (dictInsert m i target_path)
        | none => Except.error ()
      else Except.ok m)
    ([] : List (String × String))
  let sheets := (workbook_root.findAllDesc "s:sheet").foldl
    (fun acc sheet =>
      let name := (sheet.getAttr "name").getD "Sheet"
      match sheet.getAttr "r:id" with
      | some rid =>
        if rid ≠ "" then
          match dictGet rid_to_target rid with
          | some target => acc ++ [(name, pyNormpath target)]
          | none => acc
        else acc
      | none => acc)
    ([] : List (String × String))
  Except.ok sheets

structure CellText where
  cell : String
  text : String
deriving DecidableEq

structure Metadata where
  filename : String
  created : String
  sheets : List String

structure SheetEntry where
  name : String
  text_content : List CellText
  images : List ImageInfo
  shapes_text : List ShapeText
  smartart : List SmartArtNode
  sheet_part : String

/-- The whole-document JSON value assembled by `process_excel`, plus the
ordered log of image files written during the run. `text_content` and
`links` are the always-empty placeholders of the source. -/
structure ExtractionResult where
  text_content : List CellText
  images : List ImageInfo
  smartart : List SmartArtNode
  links : List String
  metadata : Metadata
  sheets : List SheetEntry
  writes : List (String × List Nat)

/-- The per-relationship body of the sheet loop: a drawing-typed
relationship resolves to a drawing part; when that part exists the anchor
extractor runs (errors propagate — there is no handler here), and each
SmartArt reference is built under its own `try`/`except` (both a
parse failure of the data model and a `RecursionError` are swallowed). -/
def relStep (z : Zip) (images_dir sheet_name sheet_part : String) (fuel : Nat)
    (acc : List ImageInfo × List ShapeText × List SmartArtNode × List (String × List Nat))
    (relkv : String × String × String) :
    Except Unit (List ImageInfo × List ShapeText × List SmartArtNode × List (String × List Nat)) := do
  if strEndsWith relkv.2.1 "/drawing" then
    let drawing_part :=
      replaceAll (normalize_rel_target (dirnameStr sheet_part) relkv.2.2) "worksheets/../" "xl/"
    let drawing_part := pyNormpath drawing_part
    if drawing_part ∈ z.names then do
      let (images, shape_texts, smartart_refs, w) ←
        extract_images_and_shapes z drawing_part images_dir sheet_name
      let smartNew := smartart_refs.foldl
        (fun sacc r =>
          match build_smartart_hierarchy z fuel r.2.2 with
          | Except.ok nodes => sacc ++ nodes
          | Except.error _ => sacc)
        ([] : List SmartArtNode)
      Except.ok (acc.1 ++ images, acc.2.1 ++ shape_texts, acc.2.2.1 ++ smartNew, acc.2.2.2 ++ w)
    else Except.ok acc
  else Except.ok acc

/-- One sheet of the `process_excel` loop: read the sheet's relationships
(errors propagate) and process every drawing-typed relationship in document
order. Produces the sheet entry plus that sheet's contribution to the
document-level rollups and the write log. -/
def sheetStep (z : Zip) (images_dir : String)
    (cells_by_sheet : String → List CellText) (fuel : Nat)
    (sheet_name sheet_part : String) :
    Except Unit (SheetEntry × List ImageInfo × List SmartArtNode × List (String × List Nat)) := do
  let s_rels ← read_sheet_relationships z sheet_part
  let (imgs, shps, smarts, ws) ← s_rels.foldlM
    (relStep z images_dir sheet_name sheet_part fuel) ([], [], [], [])
  Except.ok
    ({ name := sheet_name
       text_content := cells_by_sheet sheet_name
       images := imgs
       shapes_text := shps
       smartart := smarts
       sheet_part := sheet_part },
      imgs, smarts, ws)

/-- `process_excel`: discover the sheets (any failure falls back to the
single conventional sheet), then run the per-sheet loop, aggregating
sheet-level entries and document-level rollups. The cell-text reader
(openpyxl) is the external collaborator `cells_by_sheet`. -/
def process_excel (z : Zip) (input_path output_dir : String)
    (cells_by_sheet : String → List CellText) (created : String) (fuel : Nat) :
    Except Unit ExtractionResult := do
  let images_dir := posixJoin output_dir "images"
  let sheets :=
    match parse_workbook_sheets z with
    | Except.ok s => s
    | Except.error _ => [("Sheet1", "xl/worksheets/sheet1.xml")]
  let (entries, allImages, allSmart, allWrites) ← sheets.foldlM
    (fun acc sp => do
      let (entry, imgs, smarts, ws) ←
        sheetStep z images_dir cells_by_sheet fuel sp.1 sp.2
      Except.ok (acc.1 ++ [entry], acc.2.1 ++ imgs, acc.2.2.1 ++ smarts, acc.2.2.2 ++ ws))
    (([], [], [], []) :
      List SheetEntry × List ImageInfo × List SmartArtNode × List (String × List Nat))
  Except.ok
    { text_content := []
      images := allImages
      smartart := allSmart
      links := []
      metadata :=
        { filename := basenameStr input_path
          created := created
          sheets := sheets.map Prod.fst }
      sheets := entries
      writes := allWrites }

/-! ## `generate_markdown` -/

/-- A character kept by the TOC anchor slug (`[a-z0-9]`). -/
def tocChar (c : Char) : Bool :=
  ('a' ≤ c ∧ c ≤ 'z') || c.isDigit

/-- Collapse every maximal run of non-`[a-z0-9]` characters to one `-`
(`re.sub(r"[^a-z0-9]+", "-", ...)`). -/
def tocAux : Bool → List Char → List Char
  | _, [] => []
  | prevBad, c :: rest =>
    if tocChar c then c :: tocAux false rest
    else if prevBad then tocAux true rest
    else '-' :: tocAux true rest

/-- `.strip("-")`. -/
def stripDashes (l : List Char) : List Char :=
  ((l.dropWhile (fun c => c = '-')).reverse.dropWhile (fun c => c = '-')).reverse

/-- The TOC anchor slug of a sheet name. -/
def tocAnchor (sheet_name : String) : String :=
  ⟨stripDashes (tocAux false (pyLower sheet_name).data)⟩

mutual

/-- One node of the SmartArt `walk`: an indented bullet whose text falls
back to `(id: ...)` when the stripped text is empty, then the children one
level deeper. -/
def walkNode (depth : Nat) : SmartArtNode → List String
  | .mk i t cs =>
    let bullet := dupString "  " depth ++ "- "
    let text := if pyStrip t ≠ "" then pyStrip t else "(id: " ++ i ++ ")"
    (bullet ++ text) :: walkList (depth + 1) cs

def walkList (depth : Nat) : List SmartArtNode → List String
  | [] => []
  | n :: ns => walkNode depth n ++ walkList depth ns

end

/-- The per-sheet section of the Markdown body: heading, then (each only
when non-empty) cell text, shape text, image embeds and the SmartArt
outline. -/
def sheetSection (sheet : SheetEntry) : List String :=
  ["## " ++ sheet.name]
  ++ (if sheet.text_content ≠ [] then
        ["", "### Cell Text"] ++
          sheet.text_content.map (fun item => "- " ++ item.cell ++ ": " ++ item.text)
      else [])
  ++ (if sheet.shapes_text ≠ [] then
        ["", "### Shapes Text"] ++
          sheet.shapes_text.map (fun st =>
            "- (r" ++ toString st.anchor.row ++ ", c" ++ toString st.anchor.col ++ "): " ++ st.text)
      else [])
  ++ (if sheet.images ≠ [] then
        ["", "### Images"] ++
          sheet.images.map (fun im =>
            "![Image at r" ++ toString im.anchor.row ++ " c" ++ toString im.anchor.col ++
              "](" ++ im.image_filename ++ ")")
      else [])
  ++ (match sheet.smartart with
      | [] => []
      | smartarts => ["", "### SmartArt"] ++ walkList 0 smartarts)
  ++ [""]

/-- The full `lines` list of `generate_markdown`: title, the `Generated on`
timestamp line, the table of contents, then every sheet section. -/
def genLines (r : ExtractionResult) (now : String) : List String :=
  ["# Excel to Markdown Conversion", "Generated on: " ++ now, "", "## Table of Contents"]
  ++ r.sheets.map (fun sheet => "- [" ++ sheet.name ++ "](#" ++ tocAnchor sheet.name ++ ")")
  ++ [""]
  ++ (r.sheets.map sheetSection).flatten

/-- `generate_markdown`: newline-join the lines, strip trailing whitespace,
and append one final newline. `now` is the `datetime.now()` timestamp
the source interpolates into line 2. -/
def generate_markdown (r : ExtractionResult) (now : String) : String :=
  pyRstrip ("\n".intercalate (genLines r now)) ++ "\n"

/-- The file contents visible after a run: each `open(path, "wb")` truncates,
so the last write to a path wins. -/
def fsAfter (writes : List (String × List Nat)) (p : String) : Option (List Nat) :=
  ((writes.filter (fun w => w.1 == p)).getLast?).map Prod.snd

/-- `metadata.created` overwritten, everything else kept — used to compare
two runs' JSON documents modulo the timestamp field. -/
def setCreated (c : String) (r : ExtractionResult) : ExtractionResult :=
  { r with metadata := { r.metadata with created := c } }

/-! # Claim theorems -/

/-! ## C9 — anchor defaults -/

/-- C9: `extract_anchor` is a total function into the four-integer-field
`Anchor` record (it never raises); when the whole `xdr:from` sub-element is
absent all four fields are 0, and when `xdr:from` is present each of
`col`/`colOff`/`row`/`rowOff` falls back to 0 whenever its child element is
missing, has no text, or has text that does not parse as an integer. -/
theorem extract_anchor_defaults (e : XML) :
    (e.findChild "xdr:from" = none →
      extract_anchor e = { col := 0, colOff := 0, row := 0, rowOff := 0 }) ∧
    (∀ f, e.findChild "xdr:from" = some f →
      extract_anchor e =
        { col := read_child f "col", colOff := read_child f "colOff",
          row := read_child f "row", rowOff := read_child f "rowOff" } ∧
      ∀ name : String,
        (f.findChild ("xdr:" ++ name) = none → read_child f name = 0) ∧
        (∀ c, f.findChild ("xdr:" ++ name) = some c → c.text = none →
          read_child f name = 0) ∧
        (∀ c t, f.findChild ("xdr:" ++ name) = some c → c.text = some t →
          pyInt t = none → read_child f name = 0)) := by
  refine ⟨fun h => ?_, fun f hf => ⟨?_, fun name => ⟨fun h => ?_, fun c hc ht => ?_, fun c t hc ht hp => ?_⟩⟩⟩
  · simp [extract_anchor, h]
  · simp [extract_anchor, hf, read_pos]
  · simp [read_child, h]
  · simp [read_child, hc, ht]
  · simp [read_child, hc, ht, hp]

/-- C9 witness: a concrete anchor container with no `xdr:from` child
resolves to the all-zero anchor. -/
theorem extract_anchor_defaults_witness :
    extract_anchor (XML.elem "xdr:twoCellAnchor" [] none []) =
      { col := 0, colOff := 0, row := 0, rowOff := 0 } :=
  (extract_anchor_defaults (XML.elem "xdr:twoCellAnchor" [] none [])).1 rfl

/-! ## C8 — basic picture extraction -/

/-- A `twoCellAnchor` holding a picture whose blip embeds `rId1`, anchored
at `(col 2, row 3)`. -/
def anchorPicC8 : XML :=
  XML.elem "xdr:twoCellAnchor" [] none
    [XML.elem "xdr:from" [] none
       [XML.elem "xdr:col" [] (some "2") [],
        XML.elem "xdr:colOff" [] (some "0") [],
        XML.elem "xdr:row" [] (some "3") [],
        XML.elem "xdr:rowOff" [] (some "0") []],
     XML.elem "xdr:pic" [] none
       [XML.elem "xdr:blipFill" [] none
          [XML.elem "a:blip" [("r:embed", "rId1")] none []]]]

def drawingC8 : XML :=
  XML.elem "xdr:wsDr" [] none [anchorPicC8]

def drawingRelsC8 : XML :=
  XML.elem "pr:Relationships" [] none
    [XML.elem "pr:Relationship"
       [("Id", "rId1"),
        ("Type", "http://schemas.openxmlformats.org/officeDocument/2006/relationships/image"),
        ("Target", "../media/image1.png")] none []]

/-- Archive for the basic-picture scenario: one drawing, its rels, and the
referenced media part with caller-chosen bytes `b`. -/
def zipC8 (b : List Nat) : Zip :=
  { names := ["xl/drawings/drawing1.xml", "xl/drawings/_rels/drawing1.xml.rels",
              "xl/media/image1.png"]
    xml := fun p =>
      if p = "xl/drawings/drawing1.xml" then some drawingC8
      else if p = "xl/drawings/_rels/drawing1.xml.rels" then some drawingRelsC8
      else none
    bytes := fun p => if p = "xl/media/image1.png" then b else [] }

/-- The same archive with a media part that has no extension, to exercise
the `".bin"` default. -/
def drawingRelsC8bin : XML :=
  XML.elem "pr:Relationships" [] none
    [XML.elem "pr:Relationship"
       [("Id", "rId1"),
        ("Type", "http://schemas.openxmlformats.org/officeDocument/2006/relationships/image"),
        ("Target", "../media/image1")] none []]

def zipC8bin (b : List Nat) : Zip :=
  { names := ["xl/drawings/drawing1.xml", "xl/drawings/_rels/drawing1.xml.rels",
              "xl/media/image1"]
    xml := fun p =>
      if p = "xl/drawings/drawing1.xml" then some drawingC8
      else if p = "xl/drawings/_rels/drawing1.xml.rels" then some drawingRelsC8bin
      else none
    bytes := fun p => if p = "xl/media/image1" then b else [] }

/-- C8: for the drawing with one `twoCellAnchor` picture whose blip resolves
to `xl/media/image1.png` (present in the archive), processed for sheet
`"Sales"`, the extractor yields exactly one `ImageInfo` with
`sheet_name = "Sales"`, saved as `Sales_img_1.png` (1-based per-part
counter, extension from the source part), JSON filename
`images/Sales_img_1.png`, and writes exactly the source part's bytes; with
an extension-less source part the saved name falls back to
`Sales_img_1.bin`. -/
theorem basic_picture_extraction (b : List Nat) :
    extract_images_and_shapes (zipC8 b) "xl/drawings/drawing1.xml" "out/images" "Sales" =
      Except.ok
        ([{ sheet_name := "Sales", image_filename := "images/Sales_img_1.png",
            original_part := "xl/media/image1.png",
            anchor := { col := 2, colOff := 0, row := 3, rowOff := 0 } }],
         [], [], [("out/images/Sales_img_1.png", b)]) ∧
    extract_images_and_shapes (zipC8bin b) "xl/drawings/drawing1.xml" "out/images" "Sales" =
      Except.ok
        ([{ sheet_name := "Sales", image_filename := "images/Sales_img_1.bin",
            original_part := "xl/media/image1",
            anchor := { col := 2, colOff := 0, row := 3, rowOff := 0 } }],
         [], [], [("out/images/Sales_img_1.bin", b)]) :=
  ⟨rfl, rfl⟩

/-! ## C1 — shape text concatenation -/

/-- A shape anchor whose text body holds exactly the runs
`"Hello"`, `" "`, `"World"`. -/
def anchorShapeC1 : XML :=
  XML.elem "xdr:twoCellAnchor" [] none
    [XML.elem "xdr:sp" [] none
       [XML.elem "xdr:txBody" [] none
          [XML.elem "a:p" [] none
             [XML.elem "a:r" [] none [XML.elem "a:t" [] (some "Hello") []],
              XML.elem "a:r" [] none [XML.elem "a:t" [] (some " ") []],
              XML.elem "a:r" [] none [XML.elem "a:t" [] (some "World") []]]]]]

def drawingC1 : XML :=
  XML.elem "xdr:wsDr" [] none [anchorShapeC1]

def zipC1 : Zip :=
  { names := ["xl/drawings/drawing1.xml"]
    xml := fun p => if p = "xl/drawings/drawing1.xml" then some drawingC1 else none
    bytes := fun _ => [] }

/-- C1 counterexample: the runs `"Hello"`, `" "`, `"World"` do NOT produce
`"Hello World"` — each run is stripped before the single-space join, so the
whitespace-only middle run becomes empty yet still contributes a join
separator, giving `"Hello  World"` (two spaces). -/
theorem shape_text_hello_world_refuted :
    extract_images_and_shapes zipC1 "xl/drawings/drawing1.xml" "out/images" "S" =
      Except.ok
        ([], [{ sheet_name := "S", text := "Hello  World",
                anchor := { col := 0, colOff := 0, row := 0, rowOff := 0 } }], [], []) ∧
    "Hello  World" ≠ "Hello World" :=
  ⟨rfl, by decide⟩

/-- C1 (amended): for every shape anchor, the extracted text is obtained by
stripping each text-run of the shape's text body (collected in document
order), joining the stripped runs with single spaces, and stripping the
result; an item is appended exactly when that string is non-empty; and on
the runs `"Hello"`, `" "`, `"World"` this yields `"Hello  World"`. -/
theorem shape_text_join (z : Zip) (rels : RelMap)
    (base outdir sheet : String) (st : ExtractState) (anchor sp tx : XML)
    (hpic : anchor.findChild "xdr:pic" = none)
    (hsp : anchor.findChild "xdr:sp" = some sp)
    (htx : sp.findChild "xdr:txBody" = some tx) :
    anchorStep z rels base outdir sheet st anchor =
      (if joinTrimmed (read_text_nodes tx) ≠ "" then
        { st with shapes := st.shapes ++
            [{ sheet_name := sheet, text := joinTrimmed (read_text_nodes tx),
               anchor := extract_anchor anchor }] }
       else st) ∧
    joinTrimmed (read_text_nodes tx) =
      pyStrip (" ".intercalate ((read_text_nodes tx).map pyStrip)) ∧
    joinTrimmed ["Hello", " ", "World"] = "Hello  World" := by
  refine ⟨?_, rfl, by decide⟩
  simp only [anchorStep, hpic, hsp, shapeStep, htx]

/-- C1 witness: the amended theorem applied to the concrete
`"Hello"`/`" "`/`"World"` shape anchor. -/
theorem shape_text_join_witness :
    anchorStep zipC1 [] "xl/drawings" "out/images" "S" initExtractState anchorShapeC1 =
      { initExtractState with
        shapes := [{ sheet_name := "S", text := "Hello  World",
                     anchor := { col := 0, colOff := 0, row := 0, rowOff := 0 } }] } := by
  have h := (shape_text_join zipC1 [] "xl/drawings" "out/images" "S" initExtractState
    anchorShapeC1
    (XML.elem "xdr:sp" [] none
       [XML.elem "xdr:txBody" [] none
          [XML.elem "a:p" [] none
             [XML.elem "a:r" [] none [XML.elem "a:t" [] (some "Hello") []],
              XML.elem "a:r" [] none [XML.elem "a:t" [] (some " ") []],
              XML.elem "a:r" [] none [XML.elem "a:t" [] (some "World") []]]]])
    (XML.elem "xdr:txBody" [] none
       [XML.elem "a:p" [] none
          [XML.elem "a:r" [] none [XML.elem "a:t" [] (some "Hello") []],
           XML.elem "a:r" [] none [XML.elem "a:t" [] (some " ") []],
           XML.elem "a:r" [] none [XML.elem "a:t" [] (some "World") []]]])
    rfl rfl rfl).1
  rw [h]
  rfl

/-! ## C7 — diagram relationship-id preference -/

/-- A graphic frame whose diagram `relIds` carries both a data-model id
(`r:dm = rId1`) and a layout id (`r:lo = rId2`). -/
def anchorFrameC7 : XML :=
  XML.elem "xdr:twoCellAnchor" [] none
    [XML.elem "xdr:graphicFrame" [] none
       [XML.elem "a:graphic" [] none
          [XML.elem "a:graphicData"
             [("uri", "http://schemas.openxmlformats.org/drawingml/2006/diagram")] none
             [XML.elem "dgm:relIds" [("r:dm", "rId1"), ("r:lo", "rId2")] none []]]]]

def drawingC7 : XML :=
  XML.elem "xdr:wsDr" [] none [anchorFrameC7]

def drawingRelsC7 : XML :=
  XML.elem "pr:Relationships" [] none
    [XML.elem "pr:Relationship"
       [("Id", "rId1"),
        ("Type", "http://schemas.openxmlformats.org/officeDocument/2006/relationships/diagramData"),
        ("Target", "../diagrams/data1.xml")] none [],
     XML.elem "pr:Relationship"
       [("Id", "rId2"),
        ("Type", "http://schemas.openxmlformats.org/officeDocument/2006/relationships/diagramLayout"),
        ("Target", "../diagrams/layout1.xml")] none []]

def zipC7 : Zip :=
  { names := ["xl/drawings/drawing1.xml", "xl/drawings/_rels/drawing1.xml.rels"]
    xml := fun p =>
      if p = "xl/drawings/drawing1.xml" then some drawingC7
      else if p = "xl/drawings/_rels/drawing1.xml.rels" then some drawingRelsC7
      else none
    bytes := fun _ => [] }

/-- C7 counterexample: a frame carrying both a resolvable `dm` id and a
resolvable `lo` id yields TWO diagram reference tuples (the `dm` one and
then the `lo` one), not exactly one — the `lo`/`qs`/`cs` loop runs whether
or not the `dm` id resolved. -/
theorem dm_preference_refuted :
    extract_images_and_shapes zipC7 "xl/drawings/drawing1.xml" "out/images" "S" =
      Except.ok
        ([], [],
         [({ col := 0, colOff := 0, row := 0, rowOff := 0 }, "rId1", "xl/diagrams/data1.xml"),
          ({ col := 0, colOff := 0, row := 0, rowOff := 0 }, "rId2", "xl/diagrams/layout1.xml")],
         []) ∧
    ([({ col := 0, colOff := 0, row := 0, rowOff := 0 }, "rId1", "xl/diagrams/data1.xml"),
      ({ col := 0, colOff := 0, row := 0, rowOff := 0 }, "rId2", "xl/diagrams/layout1.xml")] :
        List (Anchor × String × String)).length ≠ 1 :=
  ⟨rfl, by decide⟩

/-- A `lo`/`qs`/`cs` key whose attribute is absent contributes nothing. -/
theorem relIdsKeyStep_absent (rels : RelMap) (base : String) (a : Anchor)
    (rel_ids : XML) (st : ExtractState) (key : String)
    (h : rel_ids.getAttr ("r:" ++ key) = none) :
    relIdsKeyStep rels base a rel_ids st key = st := by
  simp only [relIdsKeyStep, h]

/-- A `lo`/`qs`/`cs` key that is present, non-empty and resolvable appends
its tuple. -/
theorem relIdsKeyStep_present (rels : RelMap) (base : String) (a : Anchor)
    (rel_ids : XML) (st : ExtractState) (key rid : String) (rel : String × String)
    (h : rel_ids.getAttr ("r:" ++ key) = some rid) (h' : rid ≠ "")
    (hg : dictGet rels rid = some rel) :
    relIdsKeyStep rels base a rel_ids st key =
      { st with smartRefs := st.smartRefs ++
          [(a, rid, normalize_rel_target base rel.2)] } := by
  simp only [relIdsKeyStep, h]
  rw [if_pos h']
  simp only [hg]

/-- C7 (amended): for a diagram graphic frame, the resolvable `dm` id is
emitted first, and each of the `lo`, `qs`, `cs` ids that is present and
resolvable is emitted additionally — in that order — whether or not the
`dm` id resolved; so a frame with both a resolvable `dm` and a resolvable
`lo` id (and no `qs`/`cs`) yields exactly the two tuples dm-then-lo. -/
theorem dm_then_lo_emitted (rels : RelMap) (base : String) (a : Anchor)
    (gframe gdata rel_ids : XML) (st : ExtractState)
    (dmRid loRid : String) (dmRel loRel : String × String)
    (h1 : gframe.findDesc "a:graphicData" = some gdata)
    (h2 : strEndsWith ((gdata.getAttr "uri").getD "") "/diagram" = true)
    (h3 : gdata.findChild "dgm:relIds" = some rel_ids)
    (h4 : rel_ids.getAttr "r:dm" = some dmRid) (h4' : dmRid ≠ "")
    (h5 : dictGet rels dmRid = some dmRel)
    (h6 : rel_ids.getAttr "r:lo" = some loRid) (h6' : loRid ≠ "")
    (h7 : dictGet rels loRid = some loRel)
    (h8 : rel_ids.getAttr "r:qs" = none)
    (h9 : rel_ids.getAttr "r:cs" = none) :
    gframeStep rels base a gframe st =
      { st with smartRefs := st.smartRefs ++
          [(a, dmRid, normalize_rel_target base dmRel.2),
           (a, loRid, normalize_rel_target base loRel.2)] } := by
  have hlo : relIdsKeyStep rels base a rel_ids
      { st with smartRefs := st.smartRefs ++ [(a, dmRid, normalize_rel_target base dmRel.2)] }
      "lo" =
      { st with smartRefs := (st.smartRefs ++ [(a, dmRid, normalize_rel_target base dmRel.2)]) ++
          [(a, loRid, normalize_rel_target base loRel.2)] } :=
    relIdsKeyStep_present rels base a rel_ids _ "lo" loRid loRel h6 h6' h7
  have hqs := relIdsKeyStep_absent rels base a rel_ids
    { st with smartRefs := (st.smartRefs ++ [(a, dmRid, normalize_rel_target base dmRel.2)]) ++
        [(a, loRid, normalize_rel_target base loRel.2)] } "qs" h8
  have hcs := relIdsKeyStep_absent rels base a rel_ids
    { st with smartRefs := (st.smartRefs ++ [(a, dmRid, normalize_rel_target base dmRel.2)]) ++
        [(a, loRid, normalize_rel_target base loRel.2)] } "cs" h9
  simp only [gframeStep, h1, h2, h3, h4, h5, List.foldl_cons, List.foldl_nil]
  rw [if_pos h4']
  rw [hlo, hqs, hcs]
  simp [List.append_assoc]

/-- C7 witness: the amended theorem applied to the concrete dm+lo frame. -/
theorem dm_then_lo_emitted_witness :
    gframeStep
      [("rId1", ("http://schemas.openxmlformats.org/officeDocument/2006/relationships/diagramData",
                 "../diagrams/data1.xml")),
       ("rId2", ("http://schemas.openxmlformats.org/officeDocument/2006/relationships/diagramLayout",
                 "../diagrams/layout1.xml"))]
      "xl/drawings" { col := 0, colOff := 0, row := 0, rowOff := 0 }
      (XML.elem "xdr:graphicFrame" [] none
        [XML.elem "a:graphic" [] none
           [XML.elem "a:graphicData"
              [("uri", "http://schemas.openxmlformats.org/drawingml/2006/diagram")] none
              [XML.elem "dgm:relIds" [("r:dm", "rId1"), ("r:lo", "rId2")] none []]]])
      initExtractState =
      { initExtractState with smartRefs :=
          [({ col := 0, colOff := 0, row := 0, rowOff := 0 }, "rId1", "xl/diagrams/data1.xml"),
           ({ col := 0, colOff := 0, row := 0, rowOff := 0 }, "rId2", "xl/diagrams/layout1.xml")] } := by
  have h := dm_then_lo_emitted
    [("rId1", ("http://schemas.openxmlformats.org/officeDocument/2006/relationships/diagramData",
               "../diagrams/data1.xml")),
     ("rId2", ("http://schemas.openxmlformats.org/officeDocument/2006/relationships/diagramLayout",
               "../diagrams/layout1.xml"))]
    "xl/drawings" { col := 0, colOff := 0, row := 0, rowOff := 0 }
    (XML.elem "xdr:graphicFrame" [] none
      [XML.elem "a:graphic" [] none
         [XML.elem "a:graphicData"
            [("uri", "http://schemas.openxmlformats.org/drawingml/2006/diagram")] none
            [XML.elem "dgm:relIds" [("r:dm", "rId1"), ("r:lo", "rId2")] none []]]])
    (XML.elem "a:graphicData"
       [("uri", "http://schemas.openxmlformats.org/drawingml/2006/diagram")] none
       [XML.elem "dgm:relIds" [("r:dm", "rId1"), ("r:lo", "rId2")] none []])
    (XML.elem "dgm:relIds" [("r:dm", "rId1"), ("r:lo", "rId2")] none [])
    initExtractState "rId1" "rId2"
    ("http://schemas.openxmlformats.org/officeDocument/2006/relationships/diagramData",
     "../diagrams/data1.xml")
    ("http://schemas.openxmlformats.org/officeDocument/2006/relationships/diagramLayout",
     "../diagrams/layout1.xml")
    rfl rfl rfl rfl (by decide) rfl rfl (by decide) rfl rfl rfl
  rw [h]
  rfl

/-! ## C2 — degenerate SmartArt fallback -/

/-- A data model with points `A`, `B` and connections `X -> A`, `A -> B`
(`X` is not a point, so no point has indegree zero). -/
def dmC2 : XML :=
  XML.elem "dgm:dataModel" [] none
    [XML.elem "dgm:ptLst" [] none
       [XML.elem "dgm:pt" [("modelId", "A")] none
          [XML.elem "dgm:t" [] none [XML.elem "a:t" [] (some "Alpha") []]],
        XML.elem "dgm:pt" [("modelId", "B")] none
          [XML.elem "dgm:t" [] none [XML.elem "a:t" [] (some "Beta") []]]],
     XML.elem "dgm:cxnLst" [] none
       [XML.elem "dgm:cxn" [("srcId", "X"), ("destId", "A")] none [],
        XML.elem "dgm:cxn" [("srcId", "A"), ("destId", "B")] none []]]

def zipC2 : Zip :=
  { names := ["xl/diagrams/data1.xml"]
    xml := fun p => if p = "xl/diagrams/data1.xml" then some dmC2 else none
    bytes := fun _ => [] }

/-- C2 counterexample: `dmC2` has a non-empty point list and no point with
indegree zero, yet the fallback does NOT give every point an empty children
sequence — point `A` keeps its child `B`, because the fallback still calls
`build_node` which follows `children_map`. -/
theorem smartart_fallback_children_refuted :
    rootsOf dmC2 = [] ∧
    idToTextOf dmC2 ≠ [] ∧
    build_smartart_hierarchy zipC2 10 "xl/diagrams/data1.xml" =
      Except.ok
        [SmartArtNode.mk "A" "Alpha" [SmartArtNode.mk "B" "Beta" []],
         SmartArtNode.mk "B" "Beta" []] ∧
    (SmartArtNode.mk "A" "Alpha" [SmartArtNode.mk "B" "Beta" []]).children ≠ [] :=
  ⟨rfl, by decide, rfl, by simp [SmartArtNode.children]⟩

/-- The id stored in a successfully built node is the id it was built for. -/
theorem buildNode_id (itt : List (String × String)) (cm : List (String × List String))
    (fuel : Nat) (i : String) (nd : SmartArtNode)
    (h : buildNode itt cm fuel i = some nd) : nd.id = i := by
  cases fuel with
  | zero => simp [buildNode] at h
  | succ n =>
    simp only [buildNode] at h
    cases hm : optionsAll (((dictGet cm i).getD []).map (buildNode itt cm n)) with
    | none => rw [hm] at h; simp at h
    | some cs => rw [hm] at h; simp at h; rw [← h]; rfl

/-- Successful `optionsAll` over `buildNode`s preserves the id list. -/
theorem optionsAll_buildNode_ids (itt : List (String × String))
    (cm : List (String × List String)) (fuel : Nat) :
    ∀ (l : List String) (ys : List SmartArtNode),
      optionsAll (l.map (buildNode itt cm fuel)) = some ys →
      ys.map SmartArtNode.id = l := by
  intro l
  induction l with
  | nil => intro ys h; simp [optionsAll] at h; simp [← h]
  | cons a rest ih =>
    intro ys h
    simp only [List.map_cons] at h
    cases ha : buildNode itt cm fuel a with
    | none => rw [ha] at h; simp [optionsAll] at h
    | some nd =>
      rw [ha] at h
      simp only [optionsAll] at h
      cases hr : optionsAll (rest.map (buildNode itt cm fuel)) with
      | none => rw [hr] at h; simp at h
      | some as =>
        rw [hr] at h
        simp at h
        rw [← h]
        simp [buildNode_id itt cm fuel a nd ha, ih as hr]

/-- Every member of a successful `optionsAll` comes from a successful
element-wise build. -/
theorem optionsAll_mem {α β : Type} (f : α → Option β) :
    ∀ (l : List α) (ys : List β), optionsAll (l.map f) = some ys →
      ∀ y ∈ ys, ∃ x ∈ l, f x = some y := by
  intro l
  induction l with
  | nil => intro ys h y hy; simp [optionsAll] at h; subst h; simp at hy
  | cons a rest ih =>
    intro ys h y hy
    simp only [List.map_cons] at h
    cases ha : f a with
    | none => rw [ha] at h; simp [optionsAll] at h
    | some b =>
      rw [ha] at h
      simp only [optionsAll] at h
      cases hr : optionsAll (rest.map f) with
      | none => rw [hr] at h; simp at h
      | some bs =>
        rw [hr] at h
        simp at h
        rw [← h] at hy
        rcases List.mem_cons.1 hy with hb | hbs
        · exact ⟨a, List.mem_cons_self a rest, by rw [ha, hb]⟩
        · rcases ih bs hr y hbs with ⟨x, hx, hfx⟩
          exact ⟨x, List.mem_cons_of_mem a hx, hfx⟩

/-- The children of a successfully built node carry exactly the ids of the
node's `children_map` entry. -/
theorem buildNode_children (itt : List (String × String))
    (cm : List (String × List String)) (fuel : Nat) (i : String) (nd : SmartArtNode)
    (h : buildNode itt cm fuel i = some nd) :
    nd.children.map SmartArtNode.id = (dictGet cm i).getD [] := by
  cases fuel with
  | zero => simp [buildNode] at h
  | succ n =>
    simp only [buildNode] at h
    cases hm : optionsAll (((dictGet cm i).getD []).map (buildNode itt cm n)) with
    | none => rw [hm] at h; simp at h
    | some cs =>
      rw [hm] at h
      simp at h
      rw [← h]
      exact optionsAll_buildNode_ids itt cm n _ cs hm

/-- `Except.ok` feeds its value straight into the continuation. -/
theorem exceptOkBind {α β : Type} (a : α) (f : α → Except Unit β) :
    (Except.ok a >>= f) = f a := rfl

/-- C2 (amended): when the diagram's point list is non-empty but no known
point id has indegree zero, the builder falls back to treating every point
as a root — in point order — but each root's subtree is still built
recursively through the connection map, so its children sequence follows
`children_map` and need not be empty; no error is raised whenever the
recursion completes within some depth budget. -/
theorem smartart_fallback (z : Zip) (fuel : Nat) (path : String) (root : XML)
    (ns : List SmartArtNode)
    (hload : load_xml z path = Except.ok root)
    (hroots : rootsOf root = [])
    (_hpts : idToTextOf root ≠ [])
    (hok : build_smartart_hierarchy z fuel path = Except.ok ns) :
    ns.map SmartArtNode.id = (idToTextOf root).map Prod.fst ∧
    ∀ nd ∈ ns, nd.children.map SmartArtNode.id =
      (dictGet (childrenMapOf root) nd.id).getD [] := by
  unfold build_smartart_hierarchy at hok
  rw [hload, exceptOkBind] at hok
  cases hbf : buildForest fuel root with
  | none => rw [hbf] at hok; simp at hok
  | some ns' =>
    rw [hbf] at hok
    simp at hok
    subst hok
    simp only [buildForest, targetsOf, hroots, ne_eq, not_true_eq_false, if_false] at hbf
    refine ⟨optionsAll_buildNode_ids _ _ fuel _ ns' hbf, fun nd hnd => ?_⟩
    rcases optionsAll_mem (buildNode (idToTextOf root) (childrenMapOf root) fuel)
      _ ns' hbf nd hnd with ⟨x, _, hfx⟩
    have hid := buildNode_id _ _ fuel x nd hfx
    rw [hid]
    exact buildNode_children _ _ fuel x nd hfx

/-- C2 witness: the amended theorem applied to `dmC2`. -/
theorem smartart_fallback_witness :
    ([SmartArtNode.mk "A" "Alpha" [SmartArtNode.mk "B" "Beta" []],
      SmartArtNode.mk "B" "Beta" []].map SmartArtNode.id =
        (idToTextOf dmC2).map Prod.fst) ∧
    ∀ nd ∈ [SmartArtNode.mk "A" "Alpha" [SmartArtNode.mk "B" "Beta" []],
            SmartArtNode.mk "B" "Beta" []],
      nd.children.map SmartArtNode.id = (dictGet (childrenMapOf dmC2) nd.id).getD [] :=
  smartart_fallback zipC2 10 "xl/diagrams/data1.xml" dmC2
    [SmartArtNode.mk "A" "Alpha" [SmartArtNode.mk "B" "Beta" []],
     SmartArtNode.mk "B" "Beta" []]
    rfl rfl (by decide) rfl

/-! ## C3 — termination of the SmartArt builder -/

/-- A cyclic data model: points `A`, `B` with connections `A -> B` and
`B -> A` (so neither has indegree zero and the child relation is cyclic). -/
def dmC3 : XML :=
  XML.elem "dgm:dataModel" [] none
    [XML.elem "dgm:ptLst" [] none
       [XML.elem "dgm:pt" [("modelId", "A")] none
          [XML.elem "dgm:t" [] none [XML.elem "a:t" [] (some "Alpha") []]],
        XML.elem "dgm:pt" [("modelId", "B")] none
          [XML.elem "dgm:t" [] none [XML.elem "a:t" [] (some "Beta") []]]],
     XML.elem "dgm:cxnLst" [] none
       [XML.elem "dgm:cxn" [("srcId", "A"), ("destId", "B")] none [],
        XML.elem "dgm:cxn" [("srcId", "B"), ("destId", "A")] none []]]

def zipC3 : Zip :=
  { names := ["xl/diagrams/data1.xml"]
    xml := fun p => if p = "xl/diagrams/data1.xml" then some dmC3 else none
    bytes := fun _ => [] }

def ittC3 : List (String × String) := idToTextOf dmC3

def cmC3 : List (String × List String) := childrenMapOf dmC3

/-- On the `A <-> B` cycle, no recursion depth suffices for either node. -/
theorem buildNode_cyc_none (n : Nat) :
    buildNode ittC3 cmC3 n "A" = none ∧ buildNode ittC3 cmC3 n "B" = none := by
  induction n with
  | zero => exact ⟨rfl, rfl⟩
  | succ m ih =>
    constructor
    · simp only [buildNode]
      rw [show (dictGet cmC3 "A").getD [] = ["B"] from rfl]
      simp only [List.map_cons, List.map_nil, ih.2]
      rfl
    · simp only [buildNode]
      rw [show (dictGet cmC3 "B").getD [] = ["A"] from rfl]
      simp only [List.map_cons, List.map_nil, ih.1]
      rfl

/-- The forest build on `dmC3` fails at every fuel. -/
theorem buildForest_cyc (fuel : Nat) : buildForest fuel dmC3 = none := by
  show optionsAll [buildNode ittC3 cmC3 fuel "A", buildNode ittC3 cmC3 fuel "B"] = none
  rw [(buildNode_cyc_none fuel).1]
  rfl

/-- C3 counterexample: on the cyclic diagram `dmC3` the builder does not
terminate — `build_node`'s recursion exceeds every depth budget, so no run
of `build_smartart_hierarchy` returns a forest. -/
theorem smartart_cycle_no_termination :
    ¬ ∃ (fuel : Nat) (ns : List SmartArtNode),
        build_smartart_hierarchy zipC3 fuel "xl/diagrams/data1.xml" = Except.ok ns := by
  rintro ⟨fuel, ns, h⟩
  unfold build_smartart_hierarchy at h
  rw [show load_xml zipC3 "xl/diagrams/data1.xml" = Except.ok dmC3 from rfl,
    exceptOkBind, buildForest_cyc fuel] at h
  simp at h

/-- Pointwise agreement on successful results transports `optionsAll`. -/
theorem optionsAll_map_congr {α β : Type} (f g : α → Option β) :
    ∀ (l : List α) (ys : List β),
      (∀ x ∈ l, ∀ y, f x = some y → g x = some y) →
      optionsAll (l.map f) = some ys → optionsAll (l.map g) = some ys := by
  intro l
  induction l with
  | nil => intro ys _ h; exact h
  | cons a rest ih =>
    intro ys hfg h
    simp only [List.map_cons] at h ⊢
    cases ha : f a with
    | none => rw [ha] at h; simp [optionsAll] at h
    | some b =>
      rw [ha] at h
      simp only [optionsAll] at h
      cases hr : optionsAll (rest.map f) with
      | none => rw [hr] at h; simp at h
      | some bs =>
        rw [hr] at h
        simp at h
        rw [hfg a (List.mem_cons_self a rest) b ha]
        simp only [optionsAll]
        rw [ih bs (fun x hx => hfg x (List.mem_cons_of_mem a hx)) hr]
        simp [h]

/-- `build_node` is monotone in the recursion budget. -/
theorem buildNode_mono (itt : List (String × String)) (cm : List (String × List String)) :
    ∀ (m k : Nat) (i : String) (nd : SmartArtNode),
      m ≤ k → buildNode itt cm m i = some nd → buildNode itt cm k i = some nd := by
  intro m
  induction m with
  | zero => intro k i nd _ h; simp [buildNode] at h
  | succ m' ih =>
    intro k i nd hmk h
    obtain ⟨k', rfl⟩ : ∃ k', k = k' + 1 := ⟨k - 1, by omega⟩
    have hm'k' : m' ≤ k' := by omega
    simp only [buildNode] at h ⊢
    cases hm : optionsAll ((((dictGet cm i).getD []).map (buildNode itt cm m'))) with
    | none => rw [hm] at h; simp at h
    | some cs =>
      rw [hm] at h
      rw [optionsAll_map_congr (buildNode itt cm m') (buildNode itt cm k') _ cs
        (fun x _ y hxy => ih k' x y hm'k' hxy) hm]
      exact h

/-- If every element can be built, the whole list can. -/
theorem optionsAll_of_all_some {α β : Type} (f : α → Option β) :
    ∀ (l : List α), (∀ x ∈ l, ∃ y, f x = some y) →
      ∃ ys, optionsAll (l.map f) = some ys := by
  intro l
  induction l with
  | nil => intro _; exact ⟨[], rfl⟩
  | cons a rest ih =>
    intro hall
    rcases hall a (List.mem_cons_self a rest) with ⟨b, hb⟩
    rcases ih (fun x hx => hall x (List.mem_cons_of_mem a hx)) with ⟨bs, hbs⟩
    refine ⟨b :: bs, ?_⟩
    simp only [List.map_cons, hb, optionsAll, hbs]

/-- With a rank strictly decreasing along the child relation, a budget one
above the node's rank always suffices. -/
theorem buildNode_of_rank (itt : List (String × String)) (cm : List (String × List String))
    (r : String → Nat) (hr : ∀ p c, c ∈ (dictGet cm p).getD [] → r c < r p) :
    ∀ (k : Nat) (i : String), r i < k → ∃ nd, buildNode itt cm k i = some nd := by
  intro k
  induction k with
  | zero => intro i hi; omega
  | succ k' ih =>
    intro i hi
    have hall : ∀ c ∈ (dictGet cm i).getD [], ∃ nd, buildNode itt cm k' c = some nd :=
      fun c hc => ih c (by have := hr i c hc; omega)
    rcases optionsAll_of_all_some (buildNode itt cm k') _ hall with ⟨cs, hcs⟩
    refine ⟨SmartArtNode.mk i ((dictGet itt i).getD "") cs, ?_⟩
    simp only [buildNode, hcs]

/-- Every mapped value is bounded by the fold of `max`. -/
theorem le_foldr_max (g : String → Nat) :
    ∀ (l : List String), ∀ t ∈ l, g t ≤ (l.map g).foldr max 0 := by
  intro l
  induction l with
  | nil => intro t ht; simp at ht
  | cons a rest ih =>
    intro t ht
    rcases List.mem_cons.1 ht with rfl | hrest
    · simp only [List.map_cons, List.foldr_cons]
      exact Nat.le_max_left _ _
    · simp only [List.map_cons, List.foldr_cons]
      exact Nat.le_trans (ih t hrest) (Nat.le_max_right _ _)

/-- C3 (amended): the builder terminates and returns a finite forest for
every diagram data model whose connection children-map admits a rank
strictly decreasing from parent to child (equivalently, whose child
relation is acyclic); on cyclic inputs such as `dmC3` the recursion is
unbounded and no depth budget suffices. -/
theorem build_terminates_of_rank (root : XML) (r : String → Nat)
    (hr : ∀ p c, c ∈ (dictGet (childrenMapOf root) p).getD [] → r c < r p) :
    ∃ fuel ns, buildForest fuel root = some ns := by
  refine ⟨((targetsOf root).map r).foldr max 0 + 1, ?_⟩
  have hall : ∀ t ∈ targetsOf root,
      ∃ nd, buildNode (idToTextOf root) (childrenMapOf root)
        (((targetsOf root).map r).foldr max 0 + 1) t = some nd := by
    intro t ht
    exact buildNode_of_rank (idToTextOf root) (childrenMapOf root) r hr _ t
      (by have := le_foldr_max r (targetsOf root) t ht; omega)
  rcases optionsAll_of_all_some _ _ hall with ⟨ns, hns⟩
  exact ⟨ns, hns⟩

/-- A data model with two points and no connections at all. -/
def dmW : XML :=
  XML.elem "dgm:dataModel" [] none
    [XML.elem "dgm:ptLst" [] none
       [XML.elem "dgm:pt" [("modelId", "A")] none
          [XML.elem "dgm:t" [] none [XML.elem "a:t" [] (some "Alpha") []]],
        XML.elem "dgm:pt" [("modelId", "B")] none
          [XML.elem "dgm:t" [] none [XML.elem "a:t" [] (some "Beta") []]]]]

/-- C3 witness: the connection-free diagram `dmW` (rank constantly 0)
terminates. -/
theorem build_terminates_of_rank_witness :
    ∃ fuel ns, buildForest fuel dmW = some ns :=
  build_terminates_of_rank dmW (fun _ => 0) (by
    intro p c hc
    rw [show childrenMapOf dmW = [] from rfl] at hc
    simp [dictGet] at hc)

/-! ## C5 — idempotence of the outputs -/

/-- A minimal extraction result (no sheets). -/
def resC5 : ExtractionResult :=
  { text_content := [], images := [], smartart := [], links := []
    metadata := { filename := "book.xlsx", created := "T0", sheets := [] }
    sheets := [], writes := [] }

/-- C5 counterexample: two runs of the same extraction differ in the
Markdown bytes — `generate_markdown` interpolates the run's own
`datetime.now()` into the `Generated on:` line, so runs at different
timestamps produce different `converted.md` contents. -/
theorem markdown_not_byte_identical :
    generate_markdown resC5 "2024-01-01 00:00:00" ≠
      generate_markdown resC5 "2024-01-01 00:00:01" := by decide

/-- `Except.map` over a bind only depends on the continuation through the
mapped values. -/
theorem except_map_congr {α : Type} (e : Except Unit α)
    (k1 k2 : α → Except Unit ExtractionResult)
    (h : ∀ a, Except.map (setCreated "") (k1 a) = Except.map (setCreated "") (k2 a)) :
    Except.map (setCreated "") (e >>= k1) = Except.map (setCreated "") (e >>= k2) := by
  cases e with
  | error err => rfl
  | ok a => exact h a

/-- C5 (amended): two runs on the same input and output directory agree on
everything except the embedded timestamps — the JSON document is identical
apart from the `metadata.created` field, and the rendered Markdown is
identical apart from line 2 (`Generated on: <timestamp>`), which differs
between runs. -/
theorem outputs_identical_mod_timestamp :
    (∀ (z : Zip) (ip od : String) (cells : String → List CellText)
        (c1 c2 : String) (fuel : Nat),
      Except.map (setCreated "") (process_excel z ip od cells c1 fuel) =
        Except.map (setCreated "") (process_excel z ip od cells c2 fuel)) ∧
    (∀ (r : ExtractionResult) (t1 t2 : String),
      pyRstrip ("
".intercalate ((genLines r t1).eraseIdx 1)) ++ "
" =
        pyRstrip ("
".intercalate ((genLines r t2).eraseIdx 1)) ++ "
") ∧
    (∀ (r : ExtractionResult) (t : String),
      generate_markdown r t = pyRstrip ("
".intercalate (genLines r t)) ++ "
") := by
  refine ⟨fun z ip od cells c1 c2 fuel => ?_, fun r t1 t2 => rfl, fun r t => rfl⟩
  unfold process_excel
  exact except_map_congr _ _ _ (fun a => rfl)

/-! ## C4 — malformed drawing part and error containment -/

def wbC4 : XML :=
  XML.elem "s:workbook" [] none
    [XML.elem "s:sheets" [] none
       [XML.elem "s:sheet" [("name", "S1"), ("r:id", "rId1")] none [],
        XML.elem "s:sheet" [("name", "S2"), ("r:id", "rId2")] none []]]

def wbRelsC4 : XML :=
  XML.elem "pr:Relationships" [] none
    [XML.elem "pr:Relationship"
       [("Id", "rId1"),
        ("Type", "http://schemas.openxmlformats.org/officeDocument/2006/relationships/worksheet"),
        ("Target", "worksheets/sheet1.xml")] none [],
     XML.elem "pr:Relationship"
       [("Id", "rId2"),
        ("Type", "http://schemas.openxmlformats.org/officeDocument/2006/relationships/worksheet"),
        ("Target", "worksheets/sheet2.xml")] none []]

/-- A worksheet rels file whose single relationship is a drawing. -/
def sheetRelsC4 (dw : String) : XML :=
  XML.elem "pr:Relationships" [] none
    [XML.elem "pr:Relationship"
       [("Id", "rId1"),
        ("Type", "http://schemas.openxmlformats.org/officeDocument/2006/relationships/drawing"),
        ("Target", ("../drawings/" ++ dw))] none []]

/-- A well-formed drawing with one text shape. -/
def drawing2C4 : XML :=
  XML.elem "xdr:wsDr" [] none
    [XML.elem "xdr:twoCellAnchor" [] none
       [XML.elem "xdr:sp" [] none
          [XML.elem "xdr:txBody" [] none
             [XML.elem "a:p" [] none
                [XML.elem "a:r" [] none [XML.elem "a:t" [] (some "ok shape") []]]]]]]

/-- Two sheets; sheet 1's drawing part `xl/drawings/drawing1.xml` is present
but malformed (`ET.fromstring` raises), sheet 2's drawing is fine. -/
def zipC4 : Zip :=
  { names := ["xl/workbook.xml", "xl/_rels/workbook.xml.rels",
              "xl/worksheets/sheet1.xml", "xl/worksheets/sheet2.xml",
              "xl/worksheets/_rels/sheet1.xml.rels", "xl/worksheets/_rels/sheet2.xml.rels",
              "xl/drawings/drawing1.xml", "xl/drawings/drawing2.xml"]
    xml := fun p =>
      if p = "xl/workbook.xml" then some wbC4
      else if p = "xl/_rels/workbook.xml.rels" then some wbRelsC4
      else if p = "xl/worksheets/_rels/sheet1.xml.rels" then some (sheetRelsC4 "drawing1.xml")
      else if p = "xl/worksheets/_rels/sheet2.xml.rels" then some (sheetRelsC4 "drawing2.xml")
      else if p = "xl/drawings/drawing1.xml" then none
      else if p = "xl/drawings/drawing2.xml" then some drawing2C4
      else none
    bytes := fun _ => [] }

/-- The identical archive with sheet 1's drawing well-formed (empty). -/
def zipC4ok : Zip :=
  { zipC4 with
    xml := fun p =>
      if p = "xl/drawings/drawing1.xml" then some (XML.elem "xdr:wsDr" [] none [])
      else zipC4.xml p }

/-- C4: a malformed XML drawing part is NOT contained at the per-drawing
boundary — the parse error raised inside `extract_images_and_shapes` has no
handler in `process_excel`'s sheet loop, so the single bad drawing of sheet
`S1` aborts the entire extraction (sheet `S2`'s intact content is lost),
while the identical archive with that one part well-formed processes
successfully. -/
theorem malformed_drawing_aborts_run :
    process_excel zipC4 "b.xlsx" "out" (fun _ => []) "T" 10 = Except.error () ∧
    extract_images_and_shapes zipC4 "xl/drawings/drawing1.xml" "out/images" "S1" =
      Except.error () ∧
    (∃ r, process_excel zipC4ok "b.xlsx" "out" (fun _ => []) "T" 10 = Except.ok r) :=
  ⟨rfl, rfl, ⟨_, rfl⟩⟩

/-! ## C10 — two drawing parts share the per-part counter's first name -/

def wbC10 : XML :=
  XML.elem "s:workbook" [] none
    [XML.elem "s:sheets" [] none
       [XML.elem "s:sheet" [("name", "Sheet1"), ("r:id", "rId1")] none []]]

def wbRelsC10 : XML :=
  XML.elem "pr:Relationships" [] none
    [XML.elem "pr:Relationship"
       [("Id", "rId1"),
        ("Type", "http://schemas.openxmlformats.org/officeDocument/2006/relationships/worksheet"),
        ("Target", "worksheets/sheet1.xml")] none []]

/-- One worksheet rels file with two drawing-typed relationships. -/
def sheetRelsC10 : XML :=
  XML.elem "pr:Relationships" [] none
    [XML.elem "pr:Relationship"
       [("Id", "rId1"),
        ("Type", "http://schemas.openxmlformats.org/officeDocument/2006/relationships/drawing"),
        ("Target", "../drawings/drawing1.xml")] none [],
     XML.elem "pr:Relationship"
       [("Id", "rId2"),
        ("Type", "http://schemas.openxmlformats.org/officeDocument/2006/relationships/drawing"),
        ("Target", "../drawings/drawing2.xml")] none []]

/-- A drawing with a single picture anchored with no `xdr:from`. -/
def drawingPicC10 : XML :=
  XML.elem "xdr:wsDr" [] none
    [XML.elem "xdr:twoCellAnchor" [] none
       [XML.elem "xdr:pic" [] none
          [XML.elem "xdr:blipFill" [] none
             [XML.elem "a:blip" [("r:embed", "rId1")] none []]]]]

def drawingRelsC10 (media : String) : XML :=
  XML.elem "pr:Relationships" [] none
    [XML.elem "pr:Relationship"
       [("Id", "rId1"),
        ("Type", "http://schemas.openxmlformats.org/officeDocument/2006/relationships/image"),
        ("Target", ("../media/" ++ media))] none []]

/-- One sheet, two drawing parts, each resolving its picture to its own
`.png` media part with bytes `b1` resp. `b2`. -/
def zipC10 (b1 b2 : List Nat) : Zip :=
  { names := ["xl/workbook.xml", "xl/_rels/workbook.xml.rels",
              "xl/worksheets/sheet1.xml", "xl/worksheets/_rels/sheet1.xml.rels",
              "xl/drawings/drawing1.xml", "xl/drawings/drawing2.xml",
              "xl/drawings/_rels/drawing1.xml.rels", "xl/drawings/_rels/drawing2.xml.rels",
              "xl/media/image1.png", "xl/media/image2.png"]
    xml := fun p =>
      if p = "xl/workbook.xml" then some wbC10
      else if p = "xl/_rels/workbook.xml.rels" then some wbRelsC10
      else if p = "xl/worksheets/_rels/sheet1.xml.rels" then some sheetRelsC10
      else if p = "xl/drawings/drawing1.xml" then some drawingPicC10
      else if p = "xl/drawings/drawing2.xml" then some drawingPicC10
      else if p = "xl/drawings/_rels/drawing1.xml.rels" then some (drawingRelsC10 "image1.png")
      else if p = "xl/drawings/_rels/drawing2.xml.rels" then some (drawingRelsC10 "image2.png")
      else none
    bytes := fun p =>
      if p = "xl/media/image1.png" then b1
      else if p = "xl/media/image2.png" then b2 else [] }

/-- The first image record of the run (from drawing 1). -/
def imgC10a : ImageInfo :=
  { sheet_name := "Sheet1", image_filename := "images/Sheet1_img_1.png"
    original_part := "xl/media/image1.png"
    anchor := { col := 0, colOff := 0, row := 0, rowOff := 0 } }

/-- The second image record of the run (from drawing 2). -/
def imgC10b : ImageInfo :=
  { sheet_name := "Sheet1", image_filename := "images/Sheet1_img_1.png"
    original_part := "xl/media/image2.png"
    anchor := { col := 0, colOff := 0, row := 0, rowOff := 0 } }

/-- C10: with two drawing parts on one sheet, each holding one resolvable
picture of the same extension, the 1-based counter restarts for the second
drawing: both first images are saved under the identical path
`out/images/Sheet1_img_1.png` — the write log shows the second write
hitting the same path, so the surviving file holds `b2` — while two
distinct `ImageInfo` entries sharing that `image_filename` both remain in
the JSON output (document rollup and sheet entry alike). -/
theorem two_drawings_counter_restart (b1 b2 : List Nat) :
    process_excel (zipC10 b1 b2) "b.xlsx" "out" (fun _ => []) "T" 10 =
      Except.ok
        { text_content := [], images := [imgC10a, imgC10b], smartart := [], links := []
          metadata := { filename := "b.xlsx", created := "T", sheets := ["Sheet1"] }
          sheets := [{ name := "Sheet1", text_content := [], images := [imgC10a, imgC10b]
                       shapes_text := [], smartart := [], sheet_part := "xl/worksheets/sheet1.xml" }]
          writes := [("out/images/Sheet1_img_1.png", b1), ("out/images/Sheet1_img_1.png", b2)] } ∧
    imgC10a.image_filename = imgC10b.image_filename ∧
    imgC10a ≠ imgC10b ∧
    fsAfter [("out/images/Sheet1_img_1.png", b1), ("out/images/Sheet1_img_1.png", b2)]
        "out/images/Sheet1_img_1.png" = some b2 :=
  ⟨rfl, rfl, by decide, rfl⟩

/-! ## C6 — path normalization

The segment-level analysis of `normalize_rel_target`: `splitCharList`
round-trips with `joinSlash`, the collapsing loop keeps a canonical stack
(a leading run of `..` followed by ordinary components), and re-resolving a
normalized path with an empty target is the identity. -/

theorem splitCharList_ne_nil (l : List Char) : splitCharList l ≠ [] := by
  induction l with
  | nil => simp [splitCharList]
  | cons c rest ih =>
    by_cases hc : c = '/'
    · simp [splitCharList, hc]
    · simp only [splitCharList, if_neg hc]
      cases hs : splitCharList rest with
      | nil => exact absurd hs ih
      | cons h t => simp

theorem splitCharList_no_slash (l : List Char) : ∀ c ∈ splitCharList l, '/' ∉ c := by
  induction l with
  | nil => intro c hc; simp [splitCharList] at hc; simp [hc]
  | cons x rest ih =>
    intro c hc
    by_cases hx : x = '/'
    · simp only [splitCharList, if_pos hx] at hc
      rcases List.mem_cons.1 hc with rfl | h
      · simp
      · exact ih c h
    · simp only [splitCharList, if_neg hx] at hc
      cases hs : splitCharList rest with
      | nil => exact absurd hs (splitCharList_ne_nil rest)
      | cons h t =>
        rw [hs] at hc
        rcases List.mem_cons.1 hc with rfl | hmem
        · intro hsl
          rcases List.mem_cons.1 hsl with heq | hin
          · exact hx heq.symm
          · exact ih h (hs ▸ List.mem_cons_self h t) hin
        · exact ih c (hs ▸ List.mem_cons_of_mem h hmem)

theorem splitCharList_of_no_slash (c : List Char) (h : '/' ∉ c) : splitCharList c = [c] := by
  induction c with
  | nil => rfl
  | cons ch rest ih =>
    have hch : ch ≠ '/' := fun he => h (he ▸ List.mem_cons_self ch rest)
    have hrest : '/' ∉ rest := fun hm => h (List.mem_cons_of_mem ch hm)
    simp only [splitCharList, if_neg hch, ih hrest]

theorem splitCharList_slash_cons (l : List Char) :
    splitCharList ('/' :: l) = [] :: splitCharList l := by
  simp [splitCharList]

theorem splitCharList_append_slash (c : List Char) (h : '/' ∉ c) (l : List Char) :
    splitCharList (c ++ '/' :: l) = c :: splitCharList l := by
  induction c with
  | nil => simp [splitCharList]
  | cons ch rest ih =>
    have hch : ch ≠ '/' := fun he => h (he ▸ List.mem_cons_self ch rest)
    have hrest : '/' ∉ rest := fun hm => h (List.mem_cons_of_mem ch hm)
    show splitCharList (ch :: (rest ++ '/' :: l)) = (ch :: rest) :: splitCharList l
    simp only [splitCharList, if_neg hch]
    rw [ih hrest]

theorem splitCharList_join (cs : List (List Char)) (hne : cs ≠ [])
    (hsl : ∀ c ∈ cs, '/' ∉ c) : splitCharList (joinSlash cs) = cs := by
  induction cs with
  | nil => exact absurd rfl hne
  | cons c rest ih =>
    cases rest with
    | nil => exact splitCharList_of_no_slash c (hsl c (List.mem_cons_self c []))
    | cons c' rs =>
      have : joinSlash (c :: c' :: rs) = c ++ '/' :: joinSlash (c' :: rs) := rfl
      rw [this, splitCharList_append_slash c (hsl c (List.mem_cons_self c _)),
        ih (by simp) (fun x hx => hsl x (List.mem_cons_of_mem c hx))]

theorem splitCharList_join_slash (cs : List (List Char)) (hne : cs ≠ [])
    (hsl : ∀ c ∈ cs, '/' ∉ c) :
    splitCharList (joinSlash cs ++ ['/']) = cs ++ [[]] := by
  induction cs with
  | nil => exact absurd rfl hne
  | cons c rest ih =>
    cases rest with
    | nil =>
      have : joinSlash [c] ++ ['/'] = c ++ '/' :: [] := rfl
      rw [this, splitCharList_append_slash c (hsl c (List.mem_cons_self c []))]
      rfl
    | cons c' rs =>
      have : joinSlash (c :: c' :: rs) ++ ['/'] = c ++ '/' :: (joinSlash (c' :: rs) ++ ['/']) := by
        simp [joinSlash]
      rw [this, splitCharList_append_slash c (hsl c (List.mem_cons_self c _)),
        ih (by simp) (fun x hx => hsl x (List.mem_cons_of_mem c hx))]
      rfl

theorem splitCharList_slash_run (s : Nat) (l : List Char) :
    splitCharList (List.replicate s '/' ++ l) = List.replicate s [] ++ splitCharList l := by
  induction s with
  | zero => rfl
  | succ n ih =>
    show splitCharList ('/' :: (List.replicate n '/' ++ l)) =
      [] :: (List.replicate n [] ++ splitCharList l)
    rw [splitCharList_slash_cons, ih]

/-- An ordinary path component: non-empty, not `.`, not `..`, slash-free. -/
def goodComp (c : List Char) : Prop :=
  c ≠ [] ∧ c ≠ ['.'] ∧ c ≠ dotdot ∧ '/' ∉ c

/-- The invariant of the collapsing loop's stack: a leading run of `..`
(none on absolute paths) followed by ordinary components. -/
def canonStack (isAbs : Bool) (acc : List (List Char)) : Prop :=
  ∃ k good, acc = List.replicate k dotdot ++ good ∧
    (∀ c ∈ good, goodComp c) ∧ (isAbs = true → k = 0)

theorem canonStack_nil (isAbs : Bool) : canonStack isAbs [] :=
  ⟨0, [], rfl, by simp, fun _ => rfl⟩

theorem canonStack_mem {isAbs : Bool} {acc : List (List Char)}
    (h : canonStack isAbs acc) : ∀ c ∈ acc, c = dotdot ∨ goodComp c := by
  rcases h with ⟨k, good, rfl, hgood, _⟩
  intro c hc
  rcases List.mem_append.1 hc with hrep | hg
  · exact Or.inl (List.eq_of_mem_replicate hrep)
  · exact Or.inr (hgood c hg)

theorem canonStack_no_slash {isAbs : Bool} {acc : List (List Char)}
    (h : canonStack isAbs acc) : ∀ c ∈ acc, '/' ∉ c := by
  intro c hc
  rcases canonStack_mem h c hc with rfl | hg
  · simp [dotdot]
  · exact hg.2.2.2

theorem canonStack_ne_nil {isAbs : Bool} {acc : List (List Char)}
    (h : canonStack isAbs acc) : ∀ c ∈ acc, c ≠ [] := by
  intro c hc
  rcases canonStack_mem h c hc with rfl | hg
  · simp [dotdot]
  · exact hg.1

/-- One append of an ordinary component preserves the invariant. -/
theorem canonStack_push_good {isAbs : Bool} {acc : List (List Char)}
    (h : canonStack isAbs acc) {c : List Char} (hc : goodComp c) :
    canonStack isAbs (acc ++ [c]) := by
  rcases h with ⟨k, good, rfl, hgood, hk⟩
  exact ⟨k, good ++ [c], by simp, by
    intro x hx
    rcases List.mem_append.1 hx with hx | hx
    · exact hgood x hx
    · simp at hx; exact hx ▸ hc, hk⟩

/-- Appending `..` preserves the invariant when the stack is empty or ends
in `..` (and the path is relative). -/
theorem canonStack_push_dd {acc : List (List Char)}
    (h : canonStack false acc)
    (hend : acc = [] ∨ acc.getLast? = some dotdot) :
    canonStack false (acc ++ [dotdot]) := by
  rcases h with ⟨k, good, rfl, hgood, _⟩
  have hgoodnil : good = [] := by
    rcases hend with hnil | hlast
    · rcases List.append_eq_nil.1 hnil with ⟨_, h2⟩
      exact h2
    · by_contra hne
      rw [List.getLast?_append_of_ne_nil _ hne] at hlast
      have := List.mem_getLast?_eq_getLast (hlast ▸ rfl : dotdot ∈ good.getLast?)
      rcases this with ⟨hg, heq⟩
      have hmem : dotdot ∈ good := heq ▸ List.getLast_mem hg
      exact (hgood dotdot hmem).2.2.1 rfl
  subst hgoodnil
  refine ⟨k + 1, [], ?_, by simp, by simp⟩
  simp [List.replicate_succ' k dotdot]

/-- Popping the last component preserves the invariant. -/
theorem canonStack_pop {isAbs : Bool} {acc : List (List Char)}
    (h : canonStack isAbs acc) : canonStack isAbs acc.dropLast := by
  rcases h with ⟨k, good, rfl, hgood, hk⟩
  by_cases hg : good = []
  · subst hg
    cases k with
    | zero => exact ⟨0, [], by simp, by simp, fun _ => rfl⟩
    | succ k' =>
      refine ⟨k', [], ?_, by simp, fun habs => by have := hk habs; omega⟩
      simp [List.replicate_succ' k' dotdot]
  · rw [List.dropLast_append_of_ne_nil _ hg]
    exact ⟨k, good.dropLast, rfl, fun c hc => hgood c (List.dropLast_subset good hc), hk⟩

/-- The collapsing loop preserves the canonical-stack invariant. -/
theorem normCompsGo_canon (isAbs : Bool) :
    ∀ (comps acc : List (List Char)), (∀ c ∈ comps, '/' ∉ c) →
      canonStack isAbs acc → canonStack isAbs (normCompsGo isAbs acc comps) := by
  intro comps
  induction comps with
  | nil => intro acc _ h; exact h
  | cons comp rest ih =>
    intro acc hsl hacc
    have hslrest : ∀ c ∈ rest, '/' ∉ c := fun c hc => hsl c (List.mem_cons_of_mem comp hc)
    by_cases h1 : comp = [] ∨ comp = ['.']
    · rw [show normCompsGo isAbs acc (comp :: rest) = normCompsGo isAbs acc rest from by
        simp only [normCompsGo, if_pos h1]]
      exact ih acc hslrest hacc
    · by_cases h2 : comp ≠ dotdot ∨ (¬ isAbs ∧ acc = []) ∨ (acc ≠ [] ∧ acc.getLast? = some dotdot)
      · rw [show normCompsGo isAbs acc (comp :: rest) =
            normCompsGo isAbs (acc ++ [comp]) rest from by
          simp only [normCompsGo, if_neg h1, if_pos h2]]
        refine ih _ hslrest ?_
        by_cases hdd : comp = dotdot
        · subst hdd
          rcases h2 with hne | hcase
        -- the first disjunct is false here
          · exact absurd rfl hne
          · rcases hcase with ⟨habsf, haccnil⟩ | ⟨haccne, hlast⟩
            · have hf : isAbs = false := by revert habsf; cases isAbs <;> simp
              subst hf
              exact canonStack_push_dd hacc (Or.inl haccnil)
            · cases hab : isAbs with
              | false =>
                subst hab
                exact canonStack_push_dd hacc (Or.inr hlast)
              | true =>
                exfalso
                subst hab
                rcases hacc with ⟨k, good, heq, hgood, hk⟩
                have hk0 : k = 0 := hk rfl
                subst hk0
                simp only [List.replicate_zero, List.nil_append] at heq
                rw [heq] at hlast
                rcases List.mem_getLast?_eq_getLast
                    (show dotdot ∈ good.getLast? by simp [Option.mem_def, hlast]) with ⟨hg, hgl⟩
                exact (hgood dotdot (hgl ▸ List.getLast_mem hg)).2.2.1 rfl
        · have hne := not_or.1 h1
          exact canonStack_push_good hacc
            ⟨hne.1, hne.2, hdd, hsl comp (List.mem_cons_self comp rest)⟩
      · by_cases h3 : acc ≠ []
        · rw [show normCompsGo isAbs acc (comp :: rest) =
              normCompsGo isAbs acc.dropLast rest from by
            simp only [normCompsGo, if_neg h1, if_neg h2, if_pos h3]]
          exact ih _ hslrest (canonStack_pop hacc)
        · rw [show normCompsGo isAbs acc (comp :: rest) = normCompsGo isAbs acc rest from by
            simp only [normCompsGo, if_neg h1, if_neg h2, if_neg h3]]
          exact ih acc hslrest hacc

/-- The collapsed components of any split are canonical. -/
theorem normComps_canon (isAbs : Bool) (p : List Char) :
    canonStack isAbs (normComps isAbs (splitCharList p)) :=
  normCompsGo_canon isAbs (splitCharList p) [] (splitCharList_no_slash p)
    (canonStack_nil isAbs)

/-- Empty and `.` components are skipped wholesale. -/
theorem normCompsGo_skip_run (isAbs : Bool) :
    ∀ (l : List (List Char)), (∀ c ∈ l, c = [] ∨ c = ['.']) →
      ∀ (acc rest : List (List Char)),
        normCompsGo isAbs acc (l ++ rest) = normCompsGo isAbs acc rest := by
  intro l
  induction l with
  | nil => intro _ acc rest; rfl
  | cons c cs ih =>
    intro h acc rest
    have hc := h c (List.mem_cons_self c cs)
    show normCompsGo isAbs acc (c :: (cs ++ rest)) = normCompsGo isAbs acc rest
    rw [show normCompsGo isAbs acc (c :: (cs ++ rest)) =
        normCompsGo isAbs acc (cs ++ rest) from by
      simp only [normCompsGo, if_pos hc]]
    exact ih (fun x hx => h x (List.mem_cons_of_mem c hx)) acc rest

/-- A run of ordinary components (with the trailing empty component produced
by a final slash) is appended verbatim. -/
theorem normCompsGo_good_run (isAbs : Bool) :
    ∀ (good : List (List Char)), (∀ c ∈ good, goodComp c) →
      ∀ (acc : List (List Char)),
        normCompsGo isAbs acc (good ++ [[]]) = acc ++ good := by
  intro good
  induction good with
  | nil =>
    intro _ acc
    show normCompsGo isAbs acc [[]] = acc ++ []
    simp [normCompsGo]
  | cons g gs ih =>
    intro h acc
    have hg := h g (List.mem_cons_self g gs)
    have h1 : ¬ (g = [] ∨ g = ['.']) := by
      rintro (he | he)
      · exact hg.1 he
      · exact hg.2.1 he
    show normCompsGo isAbs acc (g :: (gs ++ [[]])) = acc ++ g :: gs
    rw [show normCompsGo isAbs acc (g :: (gs ++ [[]])) =
        normCompsGo isAbs (acc ++ [g]) (gs ++ [[]]) from by
      simp only [normCompsGo, if_neg h1]
      rw [if_pos (Or.inl hg.2.2.1)]]
    rw [ih (fun x hx => h x (List.mem_cons_of_mem g hx)) (acc ++ [g])]
    simp

/-- A run of `..` components on a relative path accumulates onto a stack of
`..`s. -/
theorem normCompsGo_dd_run :
    ∀ (k j : Nat) (rest : List (List Char)),
      normCompsGo false (List.replicate j dotdot) (List.replicate k dotdot ++ rest) =
        normCompsGo false (List.replicate (j + k) dotdot) rest := by
  intro k
  induction k with
  | zero => intro j rest; simp
  | succ k' ih =>
    intro j rest
    have h1 : ¬ (dotdot = ([] : List Char) ∨ dotdot = ['.']) := by decide
    have h2 : dotdot ≠ dotdot ∨
        (¬ (false = true) ∧ List.replicate j dotdot = []) ∨
        (List.replicate j dotdot ≠ [] ∧ (List.replicate j dotdot).getLast? = some dotdot) := by
      cases j with
      | zero => exact Or.inr (Or.inl ⟨by simp, rfl⟩)
      | succ j' =>
        refine Or.inr (Or.inr ⟨by simp, ?_⟩)
        rw [List.replicate_succ' j' dotdot]
        exact List.getLast?_concat _
    show normCompsGo false (List.replicate j dotdot)
        (dotdot :: (List.replicate k' dotdot ++ rest)) = _
    rw [show normCompsGo false (List.replicate j dotdot)
          (dotdot :: (List.replicate k' dotdot ++ rest)) =
        normCompsGo false (List.replicate j dotdot ++ [dotdot])
          (List.replicate k' dotdot ++ rest) from by
      simp only [normCompsGo, if_neg h1]
      rw [if_pos h2]]
    rw [← List.replicate_succ' j dotdot, ih (j + 1) rest]
    congr 2
    omega

theorem joinSlash_ne_nil (cs : List (List Char)) (hne : cs ≠ [])
    (hh : ∀ c ∈ cs, c ≠ []) : joinSlash cs ≠ [] := by
  cases cs with
  | nil => exact absurd rfl hne
  | cons c rest =>
    cases rest with
    | nil => exact hh c (List.mem_cons_self c [])
    | cons c' rs =>
      show c ++ '/' :: joinSlash (c' :: rs) ≠ []
      simp

/-- One branch of the slash-count analysis of `normpathChars`: given the
computed slash count `s` and the matching absolute flag, the output is `.`,
a pure run of slashes, or slashes followed by a canonical component list. -/
theorem normpath_branch (p : List Char) (s : Nat) (isAbs : Bool) (hs : s ≤ 2)
    (hd : isAbs = decide (s ≠ 0))
    (hnp : normpathChars p =
      (if (List.replicate s '/' ++ joinSlash (normComps isAbs (splitCharList p))) = []
       then ['.']
       else List.replicate s '/' ++ joinSlash (normComps isAbs (splitCharList p)))) :
    normpathChars p = ['.'] ∨
    (∃ s' : Nat, 1 ≤ s' ∧ s' ≤ 2 ∧ normpathChars p = List.replicate s' '/') ∨
    (∃ (s' k : Nat) (good : List (List Char)), s' ≤ 2 ∧
      (List.replicate k dotdot ++ good) ≠ [] ∧
      (∀ c ∈ good, goodComp c) ∧ (s' ≠ 0 → k = 0) ∧
      normpathChars p =
        List.replicate s' '/' ++ joinSlash (List.replicate k dotdot ++ good)) := by
  have hcanon := normComps_canon isAbs p
  rcases hcanon with ⟨k, good, heq, hgood, hk⟩
  cases hcs : normComps isAbs (splitCharList p) with
  | nil =>
    rw [hcs] at hnp
    rcases Nat.eq_zero_or_pos s with hsz | hsz
    · subst hsz
      left
      rw [hnp]
      simp [joinSlash]
    · right; left
      refine ⟨s, hsz, hs, ?_⟩
      rw [hnp, if_neg (by simp [joinSlash]; omega)]
      simp [joinSlash]
  | cons c rest =>
    right; right
    rw [hcs] at heq hnp
    have hne : List.replicate k dotdot ++ good ≠ [] := by rw [← heq]; simp
    refine ⟨s, k, good, hs, hne, hgood, ?_, ?_⟩
    · intro hs0
      apply hk
      rw [hd]
      simp [hs0]
    · have hallne : ∀ x ∈ (c :: rest), x ≠ [] := by
        intro x hx
        rw [heq] at hx
        rcases List.mem_append.1 hx with hrep | hg
        · rw [List.eq_of_mem_replicate hrep]; simp [dotdot]
        · exact (hgood x hg).1
      have hjne : joinSlash (c :: rest) ≠ [] :=
        joinSlash_ne_nil (c :: rest) (by simp) hallne
      rw [hnp, if_neg (by simp [List.append_eq_nil, hjne]), heq]

/-- Shape of every `normpathChars` output: a dot, a run of one or two
slashes, or (up to two slashes then) a canonical component list. -/
theorem normpath_cases (p : List Char) :
    normpathChars p = ['.'] ∨
    (∃ s : Nat, 1 ≤ s ∧ s ≤ 2 ∧ normpathChars p = List.replicate s '/') ∨
    (∃ (s k : Nat) (good : List (List Char)), s ≤ 2 ∧
      (List.replicate k dotdot ++ good) ≠ [] ∧
      (∀ c ∈ good, goodComp c) ∧ (s ≠ 0 → k = 0) ∧
      normpathChars p =
        List.replicate s '/' ++ joinSlash (List.replicate k dotdot ++ good)) := by
  by_cases hp : p = []
  · left; simp [normpathChars, hp]
  · by_cases h3 : p.take 3 = ['/', '/', '/']
    · refine normpath_branch p 1 true (by omega) (by decide) ?_
      simp only [normpathChars, if_neg hp, if_pos h3]
      rfl
    · by_cases h2 : p.take 2 = ['/', '/']
      · refine normpath_branch p 2 true (by omega) (by decide) ?_
        simp only [normpathChars, if_neg hp, if_neg h3, if_pos h2]
        rfl
      · by_cases h1 : p.take 1 = ['/']
        · refine normpath_branch p 1 true (by omega) (by decide) ?_
          simp only [normpathChars, if_neg hp, if_neg h3, if_neg h2, if_pos h1]
          rfl
        · refine normpath_branch p 0 false (by omega) (by decide) ?_
          simp only [normpathChars, if_neg hp, if_neg h3, if_neg h2, if_neg h1]
          rfl

theorem stripDotSlash_no_op (l : List Char) (h : l.take 2 ≠ ['.', '/']) :
    stripDotSlashChars l = l := by
  match l with
  | [] => rfl
  | [c] => rfl
  | c1 :: c2 :: rest =>
    have hcc : ¬ (c1 = '.' ∧ c2 = '/') := by
      rintro ⟨rfl, rfl⟩
      exact h rfl
    simp [stripDotSlashChars, hcc]

theorem take2_ne_dotslash_of_head (l : List Char) (c : Char) (t : List Char)
    (hl : l = c :: t) (hc : c ≠ '.') : l.take 2 ≠ ['.', '/'] := by
  subst hl
  intro h
  simp [List.take] at h
  exact hc h.1

/-- The stripping loop is the identity on every canonical normalized path:
no such path starts with `./`. -/
theorem stripDotSlash_canon (s k : Nat) (good : List (List Char))
    (hgood : ∀ c ∈ good, goodComp c)
    (hne : List.replicate k dotdot ++ good ≠ []) :
    stripDotSlashChars
        (List.replicate s '/' ++ joinSlash (List.replicate k dotdot ++ good)) =
      List.replicate s '/' ++ joinSlash (List.replicate k dotdot ++ good) := by
  apply stripDotSlash_no_op
  cases s with
  | succ s' =>
    apply take2_ne_dotslash_of_head _ '/'
      (List.replicate s' '/' ++ joinSlash (List.replicate k dotdot ++ good)) ?_ (by decide)
    simp [List.replicate_succ]
  | zero =>
    simp only [List.replicate_zero, List.nil_append]
    cases k with
    | succ k' =>
      have hshape : ∃ z,
          joinSlash (List.replicate (k' + 1) dotdot ++ good) = '.' :: '.' :: z := by
        rw [List.replicate_succ, List.cons_append]
        cases hre : List.replicate k' dotdot ++ good with
        | nil => exact ⟨[], rfl⟩
        | cons y ys => exact ⟨'/' :: joinSlash (y :: ys), rfl⟩
      rcases hshape with ⟨z, hz⟩
      rw [hz]
      intro hcontra
      simp [List.take] at hcontra
    | zero =>
      simp only [List.replicate_zero, List.nil_append] at hne ⊢
      cases good with
      | nil => exact absurd rfl hne
      | cons g grest =>
        have hg := hgood g (List.mem_cons_self g grest)
        cases g with
        | nil => exact absurd rfl hg.1
        | cons gc gt =>
          by_cases hgc : gc = '.'
          · subst hgc
            cases gt with
            | nil => exact absurd rfl hg.2.1
            | cons gc2 gt2 =>
              have hgc2 : gc2 ≠ '/' := by
                intro he
                exact hg.2.2.2 (he ▸ List.mem_cons_of_mem _ (List.mem_cons_self gc2 gt2))
              have hshape : ∃ z,
                  joinSlash (('.' :: gc2 :: gt2) :: grest) = '.' :: gc2 :: z := by
                cases grest with
                | nil => exact ⟨gt2, rfl⟩
                | cons y ys => exact ⟨gt2 ++ '/' :: joinSlash (y :: ys), rfl⟩
              rcases hshape with ⟨z, hz⟩
              rw [hz]
              intro hcontra
              simp [List.take] at hcontra
              exact hgc2 hcontra
          · have hshape : ∃ z, joinSlash ((gc :: gt) :: grest) = gc :: z := by
              cases grest with
              | nil => exact ⟨gt, rfl⟩
              | cons y ys => exact ⟨gt ++ '/' :: joinSlash (y :: ys), rfl⟩
            rcases hshape with ⟨z, hz⟩
            rw [hz]
            exact take2_ne_dotslash_of_head _ gc z rfl hgc

/-- Shape of every `normalize_rel_target` result: `.`, a run of one or two
slashes, or slashes followed by a leading `..`-run and ordinary components. -/
theorem normalize_cases (D T : String) :
    normalize_rel_target D T = "." ∨
    (∃ s : Nat, 1 ≤ s ∧ s ≤ 2 ∧
      (normalize_rel_target D T).data = List.replicate s '/') ∨
    (∃ (s k : Nat) (good : List (List Char)), s ≤ 2 ∧
      (List.replicate k dotdot ++ good) ≠ [] ∧
      (∀ c ∈ good, goodComp c) ∧ (s ≠ 0 → k = 0) ∧
      (normalize_rel_target D T).data =
        List.replicate s '/' ++ joinSlash (List.replicate k dotdot ++ good)) := by
  rcases normpath_cases (posixJoinChars D.data T.data) with h | ⟨s, h1, h2, h⟩ |
    ⟨s, k, good, hs, hne, hgood, hk, h⟩
  · left
    show String.mk (stripDotSlashChars (normpathChars (posixJoinChars D.data T.data))) = "."
    rw [h]
    rfl
  · right; left
    refine ⟨s, h1, h2, ?_⟩
    show stripDotSlashChars (normpathChars (posixJoinChars D.data T.data)) =
      List.replicate s '/'
    rw [h]
    apply stripDotSlash_no_op
    obtain ⟨s', rfl⟩ : ∃ s'', s = s'' + 1 := ⟨s - 1, by omega⟩
    exact take2_ne_dotslash_of_head _ '/' (List.replicate s' '/')
      (by simp [List.replicate_succ]) (by decide)
  · right; right
    refine ⟨s, k, good, hs, hne, hgood, hk, ?_⟩
    show stripDotSlashChars (normpathChars (posixJoinChars D.data T.data)) = _
    rw [h]
    exact stripDotSlash_canon s k good hgood hne

theorem goodComp_mk_ne_dotdot {g : List Char} (hg : goodComp g) :
    String.mk g ≠ ".." := by
  intro h
  have hd : g = ['.', '.'] := congrArg String.data h
  exact hg.2.2.1 hd

theorem goodComp_mk_ne_dot {g : List Char} (hg : goodComp g) :
    String.mk g ≠ "." := by
  intro h
  have hd : g = ['.'] := congrArg String.data h
  exact hg.2.1 hd

/-- The slash-free elements of a canonical component list. -/
theorem canon_list_no_slash (k : Nat) (good : List (List Char))
    (hgood : ∀ c ∈ good, goodComp c) :
    ∀ c ∈ List.replicate k dotdot ++ good, '/' ∉ c := by
  intro c hc
  rcases List.mem_append.1 hc with hrep | hg
  · rw [List.eq_of_mem_replicate hrep]
    simp [dotdot]
  · exact (hgood c hg).2.2.2

/-- Segment analysis of `normalize_rel_target`: the slash-separated segments
are a (possibly empty) leading run of `..` followed by segments that are
never `..`, and that can be `.` only when the whole result is the single
path `.`. -/
theorem normalize_segments (D T : String) :
    ∃ (k : Nat) (rest : List String),
      splitSlash (normalize_rel_target D T) = List.replicate k ".." ++ rest ∧
      ∀ seg ∈ rest, seg ≠ ".." ∧ (seg = "." → normalize_rel_target D T = ".") := by
  rcases normalize_cases D T with h | ⟨s, h1, h2, hdata⟩ |
    ⟨s, k, good, hs, hne, hgood, hk, hdata⟩
  · refine ⟨0, ["."], ?_, ?_⟩
    · have hdata : (normalize_rel_target D T).data = ['.'] := by rw [h]
      simp [splitSlash, hdata, splitCharList]
    · intro seg hseg
      simp at hseg
      subst hseg
      exact ⟨by decide, fun _ => h⟩
  · refine ⟨0, List.replicate s "" ++ [""], ?_, ?_⟩
    · have hsplit : splitCharList (List.replicate s '/') =
          List.replicate s [] ++ [[]] := by
        have := splitCharList_slash_run s []
        simpa using this
      simp [splitSlash, hdata, hsplit]
    · intro seg hseg
      rcases List.mem_append.1 hseg with hrep | hone
      · rw [List.eq_of_mem_replicate hrep]
        exact ⟨by decide, fun hd => absurd hd (by decide)⟩
      · simp at hone
        subst hone
        exact ⟨by decide, fun hd => absurd hd (by decide)⟩
  · have hslfree := canon_list_no_slash k good hgood
    have hsplit : splitCharList ((normalize_rel_target D T).data) =
        List.replicate s [] ++ (List.replicate k dotdot ++ good) := by
      rw [hdata, splitCharList_slash_run,
        splitCharList_join _ hne hslfree]
    by_cases hs0 : s = 0
    · subst hs0
      refine ⟨k, good.map (fun g => String.mk g), ?_, ?_⟩
      · simp only [splitSlash, hsplit, List.replicate_zero, List.nil_append,
          List.map_append, List.map_replicate]
        rfl
      · intro seg hseg
        rcases List.mem_map.1 hseg with ⟨g, hgmem, rfl⟩
        have hg := hgood g hgmem
        exact ⟨goodComp_mk_ne_dotdot hg, fun hd => absurd hd (goodComp_mk_ne_dot hg)⟩
    · have hk0 := hk hs0
      subst hk0
      refine ⟨0, List.replicate s "" ++ good.map (fun g => String.mk g), ?_, ?_⟩
      · simp only [splitSlash, hsplit, List.replicate_zero, List.nil_append,
          List.map_append, List.map_replicate]
      · intro seg hseg
        rcases List.mem_append.1 hseg with hrep | hmem
        · rw [List.eq_of_mem_replicate hrep]
          exact ⟨by decide, fun hd => absurd hd (by decide)⟩
        · rcases List.mem_map.1 hmem with ⟨g, hgmem, rfl⟩
          have hg := hgood g hgmem
          exact ⟨goodComp_mk_ne_dotdot hg, fun hd => absurd hd (goodComp_mk_ne_dot hg)⟩

theorem joinSlash_head_shape (cs : List (List Char)) (hne : cs ≠ [])
    (hall : ∀ c ∈ cs, c ≠ [] ∧ '/' ∉ c) :
    ∃ (ch : Char) (t : List Char), joinSlash cs = ch :: t ∧ ch ≠ '/' := by
  cases cs with
  | nil => exact absurd rfl hne
  | cons c rest =>
    have hc := hall c (List.mem_cons_self c rest)
    cases c with
    | nil => exact absurd rfl hc.1
    | cons ch ct =>
      have hch : ch ≠ '/' := fun he => hc.2 (he ▸ List.mem_cons_self ch ct)
      cases rest with
      | nil => exact ⟨ch, ct, rfl, hch⟩
      | cons c' rs => exact ⟨ch, ct ++ '/' :: joinSlash (c' :: rs), rfl, hch⟩

theorem joinSlash_getLast_ne_slash (cs : List (List Char)) :
    (∀ c ∈ cs, c ≠ [] ∧ '/' ∉ c) → cs ≠ [] →
      (joinSlash cs).getLast? ≠ some '/' := by
  induction cs with
  | nil => intro _ hne; exact absurd rfl hne
  | cons c rest ih =>
    intro hall _
    have hc := hall c (List.mem_cons_self c rest)
    cases rest with
    | nil =>
      show (joinSlash [c]).getLast? ≠ some '/'
      intro hlast
      have : joinSlash [c] = c := rfl
      rw [this] at hlast
      rcases List.mem_getLast?_eq_getLast
          (show '/' ∈ c.getLast? by simp [Option.mem_def, hlast]) with ⟨hg, hgl⟩
      exact hc.2 (hgl ▸ List.getLast_mem hg)
    | cons c' rs =>
      show (c ++ '/' :: joinSlash (c' :: rs)).getLast? ≠ some '/'
      have hjne : joinSlash (c' :: rs) ≠ [] :=
        joinSlash_ne_nil _ (by simp) (fun x hx => (hall x (List.mem_cons_of_mem c hx)).1)
      rw [List.getLast?_append_of_ne_nil _ (by simp : ('/' :: joinSlash (c' :: rs)) ≠ [])]
      cases hjs : joinSlash (c' :: rs) with
      | nil => exact absurd hjs hjne
      | cons j js =>
        rw [List.getLast?_cons_cons]
        rw [← hjs]
        exact ih (fun x hx => hall x (List.mem_cons_of_mem c hx)) (by simp)

/-- The slash-count scan of `normpathChars` reads exactly the `s` leading
slashes when the next character is not a slash. -/
theorem slashes_compute (s : Nat) (hs : s ≤ 2) (ch : Char) (t : List Char)
    (hch : ch ≠ '/') :
    (if (List.replicate s '/' ++ ch :: t).take 3 = ['/', '/', '/'] then 1
     else if (List.replicate s '/' ++ ch :: t).take 2 = ['/', '/'] then 2
     else if (List.replicate s '/' ++ ch :: t).take 1 = ['/'] then 1
     else 0) = s := by
  interval_cases s <;> simp [List.replicate, List.take, hch]

/-- Re-normalizing a canonical path with one trailing slash appended gives
back the canonical path. -/
theorem normpath_append_slash_canon (s k : Nat) (good : List (List Char))
    (hs : s ≤ 2) (hk : s ≠ 0 → k = 0) (hgood : ∀ c ∈ good, goodComp c)
    (hne : List.replicate k dotdot ++ good ≠ []) :
    normpathChars (List.replicate s '/' ++
        (joinSlash (List.replicate k dotdot ++ good) ++ ['/'])) =
      List.replicate s '/' ++ joinSlash (List.replicate k dotdot ++ good) := by
  have hall : ∀ c ∈ List.replicate k dotdot ++ good, c ≠ [] ∧ '/' ∉ c := by
    intro c hc
    rcases List.mem_append.1 hc with hrep | hg
    · rw [List.eq_of_mem_replicate hrep]
      exact ⟨by decide, by decide⟩
    · exact ⟨(hgood c hg).1, (hgood c hg).2.2.2⟩
  rcases joinSlash_head_shape _ hne hall with ⟨ch, t0, hhead, hch⟩
  have hp2ne : List.replicate s '/' ++
      (joinSlash (List.replicate k dotdot ++ good) ++ ['/']) ≠ [] := by
    simp [List.append_eq_nil]
  have hslash :
      (if (List.replicate s '/' ++
            (joinSlash (List.replicate k dotdot ++ good) ++ ['/'])).take 3 =
          ['/', '/', '/'] then 1
       else if (List.replicate s '/' ++
            (joinSlash (List.replicate k dotdot ++ good) ++ ['/'])).take 2 =
          ['/', '/'] then 2
       else if (List.replicate s '/' ++
            (joinSlash (List.replicate k dotdot ++ good) ++ ['/'])).take 1 =
          ['/'] then 1
       else 0) = s := by
    rw [hhead]
    simp only [List.cons_append]
    exact slashes_compute s hs ch (t0 ++ ['/']) hch
  have hsplit : splitCharList (List.replicate s '/' ++
        (joinSlash (List.replicate k dotdot ++ good) ++ ['/'])) =
      List.replicate s [] ++ ((List.replicate k dotdot ++ good) ++ [[]]) := by
    rw [splitCharList_slash_run]
    have : joinSlash (List.replicate k dotdot ++ good) ++ ['/'] =
        joinSlash (List.replicate k dotdot ++ good) ++ '/' :: [] := rfl
    rw [this, splitCharList_join_slash _ hne (fun c hc => (hall c hc).2)]
  have hcollapse : ∀ (isAbs : Bool), (isAbs = true → k = 0) →
      normCompsGo isAbs []
        (List.replicate s [] ++ ((List.replicate k dotdot ++ good) ++ [[]])) =
      List.replicate k dotdot ++ good := by
    intro isAbs hkabs
    rw [normCompsGo_skip_run isAbs (List.replicate s [])
      (fun c hc => Or.inl (List.eq_of_mem_replicate hc))]
    cases hab : isAbs with
    | true =>
      have hk0 : k = 0 := hkabs hab
      subst hk0
      simp only [List.replicate_zero, List.nil_append]
      have := normCompsGo_good_run true good hgood []
      simpa using this
    | false =>
      rw [List.append_assoc]
      have hdd := normCompsGo_dd_run k 0 (good ++ [[]])
      simp only [List.replicate_zero, Nat.zero_add] at hdd
      rw [show normCompsGo false [] (List.replicate k dotdot ++ (good ++ [[]])) =
          normCompsGo false (List.replicate k dotdot) (good ++ [[]]) from hdd]
      rw [normCompsGo_good_run false good hgood (List.replicate k dotdot)]
  have hjne : joinSlash (List.replicate k dotdot ++ good) ≠ [] :=
    joinSlash_ne_nil _ hne (fun c hc => (hall c hc).1)
  simp only [normpathChars, if_neg hp2ne, hslash, hsplit]
  rw [show normComps (decide (s ≠ 0))
        (List.replicate s [] ++ ((List.replicate k dotdot ++ good) ++ [[]])) =
      List.replicate k dotdot ++ good from
    hcollapse (decide (s ≠ 0)) (fun hdec => hk (by
      intro hs0
      rw [hs0] at hdec
      simp at hdec))]
  rw [if_neg (by simp [List.append_eq_nil, hjne])]

/-- Resolving a normalized path with an empty target returns it unchanged. -/
theorem normalize_roundtrip (D T : String) :
    normalize_rel_target (normalize_rel_target D T) "" = normalize_rel_target D T := by
  rcases normalize_cases D T with h | ⟨s, h1, h2, hdata⟩ |
    ⟨s, k, good, hs, hne, hgood, hk, hdata⟩
  · rw [h]
    rfl
  · have hR : normalize_rel_target D T = String.mk (List.replicate s '/') := by
      conv_lhs => rw [show normalize_rel_target D T =
        String.mk (normalize_rel_target D T).data from rfl]
      rw [hdata]
    interval_cases s
    · rw [hR]
      rfl
    · rw [hR]
      rfl
  · have hall : ∀ c ∈ List.replicate k dotdot ++ good, c ≠ [] ∧ '/' ∉ c := by
      intro c hc
      rcases List.mem_append.1 hc with hrep | hg
      · rw [List.eq_of_mem_replicate hrep]
        exact ⟨by decide, by decide⟩
      · exact ⟨(hgood c hg).1, (hgood c hg).2.2.2⟩
    have hjne : joinSlash (List.replicate k dotdot ++ good) ≠ [] :=
      joinSlash_ne_nil _ hne (fun c hc => (hall c hc).1)
    have hR : normalize_rel_target D T = String.mk
        (List.replicate s '/' ++ joinSlash (List.replicate k dotdot ++ good)) := by
      conv_lhs => rw [show normalize_rel_target D T =
        String.mk (normalize_rel_target D T).data from rfl]
      rw [hdata]
    rw [hR]
    show String.mk (stripDotSlashChars (normpathChars (posixJoinChars
      (List.replicate s '/' ++ joinSlash (List.replicate k dotdot ++ good)) []))) = _
    have hrne : List.replicate s '/' ++
        joinSlash (List.replicate k dotdot ++ good) ≠ [] := by
      simp [List.append_eq_nil, hjne]
    have hlast : (List.replicate s '/' ++
        joinSlash (List.replicate k dotdot ++ good)).getLast? ≠ some '/' := by
      rw [List.getLast?_append_of_ne_nil _ hjne]
      exact joinSlash_getLast_ne_slash _ hall hne
    have hjoin : posixJoinChars
        (List.replicate s '/' ++ joinSlash (List.replicate k dotdot ++ good)) [] =
        (List.replicate s '/' ++ joinSlash (List.replicate k dotdot ++ good)) ++ ['/'] := by
      unfold posixJoinChars
      rw [if_neg (by simp), if_neg (by push_neg; exact ⟨hrne, hlast⟩)]
    rw [hjoin, List.append_assoc,
      normpath_append_slash_canon s k good hs hk hgood hne,
      stripDotSlash_canon s k good hgood hne]

/-- C6 counterexample: for base `xl` and target `../../x.png` — a relative
target containing `../` segments — the result is `../x.png`, which still
contains a `..` segment: `posixpath.normpath` cannot cancel `..` segments
that climb above the base. -/
theorem normalize_rel_target_dotdot_escape :
    normalize_rel_target "xl" "../../x.png" = "../x.png" ∧
    ¬ (∀ seg ∈ splitSlash (normalize_rel_target "xl" "../../x.png"), seg ≠ "..") := by
  refine ⟨rfl, fun h => ?_⟩
  exact (h ".." (by decide)) rfl

/-- C6 (amended): for every base `D` and target `T`, the result of
`normalize_rel_target` contains no `./` segments (a `.` segment occurs only
as the whole result `.`), and `..` segments survive only as a leading run —
present exactly when the target climbs above the package root; in
particular base `xl/drawings` with target `../media/x.png` yields
`xl/media/x.png` (no `..`, no `./`), and resolving the result again with
itself as base and an empty relative target returns it unchanged. -/
theorem normalize_rel_target_spec (D T : String) :
    (∃ (k : Nat) (rest : List String),
      splitSlash (normalize_rel_target D T) = List.replicate k ".." ++ rest ∧
      ∀ seg ∈ rest, seg ≠ ".." ∧ (seg = "." → normalize_rel_target D T = ".")) ∧
    normalize_rel_target "xl/drawings" "../media/x.png" = "xl/media/x.png" ∧
    normalize_rel_target (normalize_rel_target D T) "" = normalize_rel_target D T :=
  ⟨normalize_segments D T, rfl, normalize_roundtrip D T⟩

end ExcelProcessor
